import Mathlib

/-!
Verification development for the `Dex` tag index of `src/objects/dex.ts`
(a many-to-many entry/tag index with query flags, iteration helpers and
per-tag materialized views).

The TypeScript code is shallowly embedded: JS `Set`s become insertion-ordered
duplicate-free lists, `Record`s become insertion-ordered association lists,
and thrown exceptions (`throw new Error`, and the `TypeError`s JS raises when
an unbound method or an `undefined` table slot is invoked) become an explicit
outcome value that also carries the state of the index at the moment of the
throw, since a JS exception leaves the mutated object behind.
-/

/-- A string/number/symbol atom: the runtime values used as `Tag`s and as
`HashKey`s (`type Tag = string | symbol | number`, `type HashKey = string
| number | symbol`).  Symbols are identified by a numeric id. -/
inductive Atom where
  | str (s : String)
  | num (n : Int)
  | sym (n : Nat)
deriving DecidableEq, Repr

/-- Tags are atoms (`type Tag = string | symbol | number`). -/
abbrev Tag := Atom

/-- Hash keys are atoms (`type HashKey = string | number | symbol`). -/
abbrev HashKey := Atom

/-- A runtime value that may be passed as an entry: an atomic value, an
`IUnique` object carrying a pre-assigned string id, any other
object/function (carrying its uuid slot), or `null`/`undefined`. -/
inductive EntryVal where
  /-- a string/number/symbol entry (its own hash) -/
  | atom (a : Atom)
  /-- an `IUnique` object: `isUnique` holds and `id` is its string id -/
  | uniqueObj (id : String)
  /-- any other object or function; `uuid` is the string its
  `Object.prototype.uuid` getter yields.  The getter (`src/utilities/object.ts`,
  bundled in `src/unnamed/part_000`) memoizes a `uuidv4()` draw in the
  object's `__uuid` slot on first access and returns the stored string on
  every later one (embedded as `uuidGet` below), so each object resolves to
  one stable non-empty string id; the model carries that id. -/
  | anonObj (uuid : String)
  /-- `null` or `undefined` -/
  | nullish
deriving DecidableEq, Repr

/-- The `Object.prototype.uuid` getter (`src/utilities/object.ts`, bundled
in `src/unnamed/part_000`):

```ts
get() {
  let id: string;
  if (id = (this as any).__uuid) { return id; }
  else { (this as any).__uuid = id = uuidv4(); }
  return id;
}
```

`slot` is the object's `__uuid` property (`none` = `undefined`), `fresh`
stands for the `uuidv4()` draw; the result is the returned id together
with the slot after the call.  A JS string is truthy exactly when it is
non-empty. -/
def uuidGet (slot : Option String) (fresh : String) : String × Option String :=
  match slot with
  | some id => if id ≠ "" then (id, some id) else (fresh, some fresh)
  | none => (fresh, some fresh)

/-- `Dex.hash` (dex.ts lines 1049-1058): `isUnique(entry) ? entry.id :
isString||isNumber||isSymbol ? entry : isObject||isFunction ? entry.uuid :
undefined`. -/
def hashOf : EntryVal → Option HashKey
  | .uniqueObj id => some (.str id)
  | .atom a => some a
  | .anonObj uuid => some (.str uuid)
  | .nullish => none

/-! ### JS container primitives

JS `Set` keeps first-insertion order and ignores re-insertions; `Record`
(plain object) keys keep first-insertion order, assignment to an existing
key updates in place, `delete` removes the key. -/

/-- `Set.prototype.add`: append if absent, else unchanged. -/
def setAdd {α : Type} [DecidableEq α] (s : List α) (a : α) : List α :=
  if a ∈ s then s else s ++ [a]

/-- `Set.prototype.delete`, returning the updated set and whether the
element was present (the JS return value). -/
def setDeleteB {α : Type} [DecidableEq α] (s : List α) (a : α) : List α × Bool :=
  (s.erase a, decide (a ∈ s))

/-- `new Set(iterable)`: insertion-order deduplication. -/
def setOfList {α : Type} [DecidableEq α] (l : List α) : List α :=
  l.foldl setAdd []

/-- Read `record[key]` (`undefined` becomes `none`). -/
def recGet {κ β : Type} [DecidableEq κ] (m : List (κ × β)) (k : κ) : Option β :=
  (m.find? (fun p => p.1 = k)).map (·.2)

/-- `record[key] = value`: update in place if the key exists, else append. -/
def recSet {κ β : Type} [DecidableEq κ] (m : List (κ × β)) (k : κ) (v : β) :
    List (κ × β) :=
  if (m.find? (fun p => p.1 = k)).isSome then
    m.map (fun p => if p.1 = k then (k, v) else p)
  else m ++ [(k, v)]

/-- `delete record[key]`. -/
def recDelete {κ β : Type} [DecidableEq κ] (m : List (κ × β)) (k : κ) :
    List (κ × β) :=
  m.filter (fun p => ¬ p.1 = k)

/-! ### The Dex state -/

/-- The state of a `Dex` instance: the four consistency-linked tables, the
entry count, and the dynamically injected per-tag view properties
(`this[tag] = [...]`).  A view value of `none` models a property that is
present with the value `undefined`; absence of the key models a deleted
property.  View elements are `Option EntryVal` because
`this._entriesByHash[hash]` may be `undefined` for a stale hash. -/
structure Dex where
  numberOfEntries : Int
  allTags : List Tag
  allHashes : List HashKey
  hashesByTag : List (Tag × List HashKey)
  tagsByEntryHash : List (HashKey × List Tag)
  entriesByHash : List (HashKey × EntryVal)
  views : List (Tag × Option (List (Option EntryVal)))
deriving DecidableEq, Repr

/-- `new Dex()`. -/
def Dex.empty : Dex :=
  { numberOfEntries := 0, allTags := [], allHashes := [], hashesByTag := []
    tagsByEntryHash := [], entriesByHash := [], views := [] }

/-- The `entries` getter: `Object.values(this._entriesByHash)`. -/
def Dex.entries (d : Dex) : List EntryVal :=
  d.entriesByHash.map (·.2)

/-- Exceptions thrown by the embedded operations. -/
inductive DexErr where
  /-- `add`'s explicit `throw new Error("Invalid item id/hash ...")` -/
  | invalidHash
  /-- a JS `TypeError`: an unbound method invoked with `this === undefined`
  (`uniqueTags.forEach(currentTags.add)`), or a method call on an
  `undefined` table slot -/
  | typeError
deriving DecidableEq, Repr

/-- The outcome of a mutating call: the state of the index afterwards
(including partial mutation when an exception was thrown) together with the
return value or the thrown error. -/
inductive DexOutcome (α : Type) where
  | ok (d : Dex) (a : α)
  | err (d : Dex) (e : DexErr)
deriving Repr

/-- The state of the index after the call, whether it returned or threw. -/
def DexOutcome.dexOf {α : Type} : DexOutcome α → Dex
  | .ok d _ => d
  | .err d _ => d

/-- The thrown error, if any. -/
def DexOutcome.errOf {α : Type} : DexOutcome α → Option DexErr
  | .ok _ _ => none
  | .err _ e => some e

/-- The returned value, if the call did not throw. -/
def DexOutcome.valOf {α : Type} : DexOutcome α → Option α
  | .ok _ a => some a
  | .err _ _ => none

/-- `_updateIndex(forTag)` (dex.ts lines 1227-1240): if the tag is no longer
in `allTags`, `delete this[forTag]`; then unconditionally
`this[forTag] = this._hashesByTag[forTag]?.toArray().map(hash =>
this._entriesByHash[hash])` — note the assignment runs even after the
delete, re-creating the property with the value `undefined` when the tag is
gone. -/
def Dex.updateIndex (d : Dex) (forTag : Tag) : Dex :=
  let d :=
    if forTag ∈ d.allTags then d
    else { d with views := recDelete d.views forTag }
  { d with
    views := recSet d.views forTag
      ((recGet d.hashesByTag forTag).map
        (fun hs => hs.map (fun h => recGet d.entriesByHash h))) }

/-- `_removeItemAt(hash)` (dex.ts lines 1035-1040). -/
def Dex.removeItemAt (d : Dex) (h : HashKey) : Dex :=
  { d with
    tagsByEntryHash := recDelete d.tagsByEntryHash h
    entriesByHash := recDelete d.entriesByHash h
    allHashes := d.allHashes.erase h
    numberOfEntries := d.numberOfEntries - 1 }

/-- Whether the entry is a string/number/symbol
(`isSymbol(entry) || isString(entry) || isNumber(entry)`). -/
def EntryVal.isAtomic : EntryVal → Bool
  | .atom _ => true
  | _ => false

/-- One step of `add`'s tag loop (dex.ts lines 864-873): register the tag,
add the hash under it, refresh its view. -/
def Dex.addTagStep (h : HashKey) (d : Dex) (t : Tag) : Dex :=
  let d := { d with allTags := setAdd d.allTags t }
  let d :=
    { d with
      hashesByTag :=
        match recGet d.hashesByTag t with
        | some s => recSet d.hashesByTag t (setAdd s h)
        | none => recSet d.hashesByTag t [h] }
  d.updateIndex t

/-- The tail of `add`'s entry branch (dex.ts lines 883-888): register the
hash, the entry, and bump the count when the hash is new. -/
def Dex.registerHash (d : Dex) (h : HashKey) (entry : EntryVal) : Dex :=
  if h ∈ d.allHashes then d
  else
    { d with
      allHashes := setAdd d.allHashes h
      entriesByHash := recSet d.entriesByHash h entry
      numberOfEntries := d.numberOfEntries + 1 }

/-- `add`'s entry-registration branch (dex.ts lines 859-891): run the tag
loop, merge the unique tags into `tagsByEntryHash[hash]`, register the
hash.  When `tagsByEntryHash[hash]` already exists the merge is
`uniqueTags.forEach(currentTags.add)`: `Set.prototype.add` is passed
unbound, so the first invocation throws a `TypeError` (with the tag loop's
mutations already applied); with no tags to iterate the callback never
runs and no exception is raised. -/
def Dex.addEntryWithTags (d : Dex) (entry : EntryVal) (h : HashKey)
    (tags : List Tag) : DexOutcome HashKey :=
  let uniqueTags := setOfList tags
  let d := uniqueTags.foldl (Dex.addTagStep h) d
  match recGet d.tagsByEntryHash h with
  | some _ =>
    if uniqueTags.isEmpty then .ok (d.registerHash h entry) h
    else .err d .typeError
  | none =>
    let d := { d with tagsByEntryHash := recSet d.tagsByEntryHash h uniqueTags }
    .ok (d.registerHash h entry) h

/-- `add(entry, tags)` (dex.ts lines 835-892).  `tags` is the normalized
tag-list input; the singular-tag JS call `add(e, t)` corresponds to
`tags = [t]`.  The hash is resolved before any table is touched, and an
unresolvable hash throws immediately; with no tags and an atomic entry the
call is a bare tag registration (`allTags`, an empty `hashesByTag` slot if
absent, and the tag's view). -/
def Dex.add (d : Dex) (entry : EntryVal) (tags : List Tag) : DexOutcome HashKey :=
  match hashOf entry with
  | none => .err d .invalidHash
  | some h =>
    match entry with
    | .atom a =>
      if tags.isEmpty then
        let d := { d with allTags := setAdd d.allTags a }
        let d :=
          if (recGet d.hashesByTag a).isSome then d
          else { d with hashesByTag := recSet d.hashesByTag a [] }
        .ok (d.updateIndex a) a
      else d.addEntryWithTags entry h tags
    | _ => d.addEntryWithTags entry h tags

/-! ### drop -/

/-- The body of `drop`'s inner `hashesByTag[t].forEach` (dex.ts lines
1005-1016), threading the effected-entry set and stopping at the JS
`TypeError` raised by `this._tagsByEntryHash[hash].delete(t)` when that
slot is `undefined` (the effected-set insertion has already happened at
that point). -/
def Dex.dropHashLoop (t : Tag) :
    Dex → List (Option EntryVal) → List HashKey →
      Dex × List (Option EntryVal) × Option DexErr
  | d, eff, [] => (d, eff, none)
  | d, eff, h :: rest =>
    let eff := setAdd eff (recGet d.entriesByHash h)
    match recGet d.tagsByEntryHash h with
    | none => (d, eff, some .typeError)
    | some ts =>
      let ts' := ts.erase t
      let d := { d with tagsByEntryHash := recSet d.tagsByEntryHash h ts' }
      let d := if ts'.isEmpty then d.removeItemAt h else d
      Dex.dropHashLoop t d eff rest

/-- `drop(...tags)`'s outer loop (dex.ts lines 1003-1023): per tag, if
`allTags.delete(t)` succeeded, walk `hashesByTag[t]`, delete the whole
`hashesByTag[t]` slot, and refresh the tag's view (`_updateIndex` runs for
absent tags too). -/
def Dex.dropTags :
    Dex → List (Option EntryVal) → List Tag →
      DexOutcome (List (Option EntryVal))
  | d, eff, [] => .ok d eff
  | d, eff, t :: rest =>
    let del := setDeleteB d.allTags t
    let d1 := { d with allTags := del.1 }
    if del.2 then
      match recGet d1.hashesByTag t with
      | none => .err d1 .typeError
      | some hs =>
        match Dex.dropHashLoop t d1 eff hs with
        | (d2, eff2, some e) => .err d2 e
        | (d2, eff2, none) =>
          let d3 := { d2 with hashesByTag := recDelete d2.hashesByTag t }
          Dex.dropTags (d3.updateIndex t) eff2 rest
    else
      Dex.dropTags (d1.updateIndex t) eff rest

/-- `drop(...tags)` (dex.ts lines 999-1026): returns the set of effected
entries (as `Option EntryVal`s, since `entriesByHash[hash]` may be
`undefined` on a corrupted index). -/
def Dex.drop (d : Dex) (tags : List Tag) : DexOutcome (List (Option EntryVal)) :=
  Dex.dropTags d [] tags

/-! ### remove -/

/-- The `target` argument of `remove`: an entry / hash key, or a predicate
over `(entry, tag)` (the entry argument is `Option` because the code passes
`this._entriesByHash[e]`, which may be `undefined`). -/
inductive RemoveTarget where
  | pred (f : Option EntryVal → Tag → Bool)
  | direct (target : EntryVal)

/-- `entriesForTag.remove(e => target(this._entriesByHash[e], t), removed
=> ...)` (dex.ts lines 910-925): splice out each matching hash in order,
and for each one delete the tag from its tag-set, removing (and counting)
the entry when the tag-set empties.  `this._tagsByEntryHash[removedEntryHash]
.delete(t)` throws a `TypeError` when the slot is `undefined`.  Returns the
surviving array, the updated count and state. -/
def Dex.removeMatchLoop (f : Option EntryVal → Tag → Bool) (t : Tag) :
    Dex → Nat → List HashKey → List HashKey →
      Dex × Nat × List HashKey × Option DexErr
  | d, cnt, survivors, [] => (d, cnt, survivors, none)
  | d, cnt, survivors, h :: rest =>
    if f (recGet d.entriesByHash h) t then
      match recGet d.tagsByEntryHash h with
      | none => (d, cnt, survivors, some .typeError)
      | some ts =>
        let ts' := ts.erase t
        let d := { d with tagsByEntryHash := recSet d.tagsByEntryHash h ts' }
        if ts'.isEmpty then
          Dex.removeMatchLoop f t (d.removeItemAt h) (cnt + 1) survivors rest
        else
          Dex.removeMatchLoop f t d cnt survivors rest
    else
      Dex.removeMatchLoop f t d cnt (survivors ++ [h]) rest

/-- `remove`'s predicate-form tag loop (dex.ts lines 907-934): for each tag,
splice matching entries out of a copy of `hashesByTag[t]`; when the copy
ends up empty the tag is only recorded in `emptiedTags` — `hashesByTag[t]`
itself is *not* reassigned in that case — otherwise `hashesByTag[t]` is
replaced by the surviving set; then the tag's view is refreshed. -/
def Dex.removePredTagLoop (f : Option EntryVal → Tag → Bool) :
    Dex → Nat → List Tag → List Tag →
      Dex × Nat × List Tag × Option DexErr
  | d, cnt, emptied, [] => (d, cnt, emptied, none)
  | d, cnt, emptied, t :: rest =>
    match recGet d.hashesByTag t with
    | none => (d, cnt, emptied, some .typeError)
    | some hs =>
      match Dex.removeMatchLoop f t d cnt [] hs with
      | (d1, cnt1, _, some e) => (d1, cnt1, emptied, some e)
      | (d1, cnt1, survivors, none) =>
        let emptied1 := if survivors.isEmpty then setAdd emptied t else emptied
        let d2 :=
          if survivors.isEmpty then d1
          else { d1 with hashesByTag := recSet d1.hashesByTag t (setOfList survivors) }
        Dex.removePredTagLoop f (d2.updateIndex t) cnt1 emptied1 rest

/-- `remove`'s direct-form tag loop (dex.ts lines 940-945): delete the hash
from `hashesByTag[t]` for each tag of the entry, recording emptied tags. -/
def Dex.removeDirectTagLoop (h : HashKey) :
    Dex → List Tag → List Tag → Dex × List Tag × Option DexErr
  | d, emptied, [] => (d, emptied, none)
  | d, emptied, t :: rest =>
    match recGet d.hashesByTag t with
    | none => (d, emptied, some .typeError)
    | some s =>
      let s' := s.erase h
      let d := { d with hashesByTag := recSet d.hashesByTag t s' }
      let emptied := if s'.isEmpty then setAdd emptied t else emptied
      Dex.removeDirectTagLoop h d emptied rest

/-- `remove(target, cleanEmptyTags = false)` (dex.ts lines 897-955).
`removedCount` is incremented only inside the predicate branch's callback;
the direct branch never touches it and always returns `0`.  With
`cleanEmptyTags` the emptied tags are passed to `drop`. -/
def Dex.remove (d : Dex) (target : RemoveTarget)
    (cleanEmptyTags : Bool := false) : DexOutcome Nat :=
  match target with
  | .pred f =>
    match Dex.removePredTagLoop f d 0 [] d.allTags with
    | (d1, cnt, _, some e) =>
      let _ := cnt
      .err d1 e
    | (d1, cnt, emptied, none) =>
      if cleanEmptyTags then
        match Dex.dropTags d1 [] emptied with
        | .ok d2 _ => .ok d2 cnt
        | .err d2 e => .err d2 e
      else .ok d1 cnt
  | .direct tgt =>
    match hashOf tgt with
    | none =>
      -- `Dex.hash(target)!` is `undefined`: the `"undefined"` record key
      -- misses every table, so nothing happens
      .ok d 0
    | some h =>
      match recGet d.tagsByEntryHash h with
      | none => .ok d 0
      | some ts =>
        match Dex.removeDirectTagLoop h d [] ts with
        | (d1, _, some e) => .err d1 e
        | (d1, emptied, none) =>
          let d2 := d1.removeItemAt h
          if cleanEmptyTags then
            match Dex.dropTags d2 [] emptied with
            | .ok d3 _ => .ok d3 0
            | .err d3 e => .err d3 e
          else .ok d2 0

/-! ### Query dispatch and `values` -/

/-- A first/second argument of `query`/`values`/`filter`/`select`: a single
string/number/symbol (a tag — or a `Flags` value, the two are
runtime-indistinguishable) or an array of tags. -/
inductive QArg where
  | single (a : Atom)
  | arr (ts : List Tag)
deriving DecidableEq, Repr

/-- JS truthiness of an atom (`0` and `""` are falsy). -/
def Atom.jsTruthy : Atom → Bool
  | .str s => s ≠ ""
  | .num n => n ≠ 0
  | .sym _ => true

/-- JS truthiness of a query argument (arrays are always truthy). -/
def QArg.jsTruthy : QArg → Bool
  | .single a => a.jsTruthy
  | .arr _ => true

/-- The own keys of the compiled `Flags` enum object: the member names plus
the reverse-mapping keys `"0" ... "16"`.  `x in Flags` tests these. -/
def flagsKeys : List String :=
  ["Strict", "Or", "And", "First", "Not", "Chain",
   "0", "1", "2", "4", "8", "16"]

/-- `tagsOrOptions in Flags` for a single (non-array) value: for a string,
key lookup among `flagsKeys`; for a number `n`, `String(n)` lookup, which
hits exactly the enum values; symbols are never keys of `Flags`. -/
def inFlags : Atom → Bool
  | .str s => s ∈ flagsKeys
  | .num n => n ∈ ([0, 1, 2, 4, 8, 16] : List Int)
  | .sym _ => false

/-- Spread a possibly-absent tag argument into a tag list, as the
`...(isArray(x) ? x : [x])` normalizations do. -/
def qargList : Option QArg → List Tag
  | none => []
  | some (.arr ts) => ts
  | some (.single a) => [a]

/-- `isArray(additionalTags) || additionalTags === undefined ?
additionalTags : [additionalTags]` (dex.ts lines 1151-1153). -/
def normAdditional : Option QArg → Option (List Tag)
  | none => none
  | some (.arr ts) => some ts
  | some (.single a) => some [a]

/-- `_splitForTagsOrOptions(base, tagsOrOptions, additionalTags)` (dex.ts
lines 1139-1171): `undefined` first argument calls `base()`; a non-array
first argument with `tagsOrOptions in Flags` is passed to `base` as the
*options* argument (the raw value, which may be a member-name string);
otherwise both arguments are flattened into one tag list. -/
def splitForTagsOrOptions {α : Type}
    (base : Option (List Tag) → Option Atom → α)
    (tagsOrOptions additionalTags : Option QArg) : α :=
  match tagsOrOptions with
  | none => base none none
  | some (.single a) =>
    if inFlags a then base (normAdditional additionalTags) (some a)
    else base (some ([a] ++ qargList additionalTags)) none
  | some (.arr ts) => base (some (ts ++ qargList additionalTags)) none

/-- JS `ToInt32` as used by `x | y` on the values that can reach
`(tagsOrOptions as Flags) | extraFlags`: numbers pass through, numeric
strings convert, other strings are `NaN` and coerce to `0`.  (A symbol
would throw in JS, but the `inFlags` guard excludes symbols.) -/
def jsToInt32 : Atom → Int
  | .num n => n
  | .str s => (s.toInt?).getD 0
  | .sym _ => 0

/-- `_addFlags(base, extraFlags)` (dex.ts lines 1200-1225): the returned
query method merges `extraFlags` into the flags position of every call. -/
def addFlags {α : Type} (base : Option QArg → Option QArg → α) (extra : Int)
    (tagsOrOptions additionalTags : Option QArg) : α :=
  match tagsOrOptions with
  | none => base (some (.single (.num extra))) none
  | some (.single a) =>
    if inFlags a then
      base (some (.single (.num (Int.lor (jsToInt32 a) extra)))) additionalTags
    else
      base (some (.single (.num extra)))
        (some (.arr ([a] ++ qargList additionalTags)))
  | some (.arr ts) =>
    base (some (.single (.num extra)))
      (some (.arr (ts ++ qargList additionalTags)))

/-- The base callback of `values` (dex.ts lines 742-757): `options ??=
Flags.Strict; const values: TEntry[] = [];` followed by an `if (options ===
Flags.Strict) { }` with an empty body and an `if (options & Flags.Not) { }
else { }` with two empty bodies, then `return values;` — the filtering
logic was left unimplemented, so the callback returns the empty array for
every input. -/
def Dex.valuesBase (d : Dex) (tags : Option (List Tag)) (options : Option Atom) :
    List EntryVal :=
  let _ := d
  let _opts := options.getD (.num 0)
  let vs : List EntryVal := []
  vs

/-- `values(tagsOrOptions, additionalTags)` (dex.ts lines 733-761): a falsy
first argument (including `Flags.Strict = 0` and the empty-string tag)
returns *all* entries; any truthy argument dispatches through
`_splitForTagsOrOptions` into the unimplemented base, which returns `[]`. -/
def Dex.values (d : Dex) (tagsOrOptions additionalTags : Option QArg) :
    List EntryVal :=
  match tagsOrOptions with
  | none => d.entries
  | some q =>
    if q.jsTruthy then
      splitForTagsOrOptions (d.valuesBase) (some q) additionalTags
    else d.entries

/-! ### forEach -/

/-- Which collection drives `forEach`'s outer loop (`outerLoopType`). -/
inductive OuterLoopType where
  | entry
  | tag
deriving DecidableEq, Repr

/-- One inner `for ... of` group of `forEach` (dex.ts lines 443-448 and
451-456): call the visitor on each pair in order; when it returns `BREAK`
(modelled as `true`) the pair has still been visited, and the inner loop
stops there. -/
def runGroup (f : Option EntryVal → Tag → Bool) :
    List (Option EntryVal × Tag) → List (Option EntryVal × Tag)
  | [] => []
  | p :: rest => if f p.1 p.2 then [p] else p :: runGroup f rest

/-- The `(entry, tag)` pairs of one outer-entry group: the entry under
`hash` paired with each of its tags (an undefined `tagsByEntryHash[hash]`
would make the JS inner loop throw; the model yields no pairs there, and
the theorems assume a well-formed index where the slot is present). -/
def Dex.entryGroup (d : Dex) (h : HashKey) : List (Option EntryVal × Tag) :=
  ((recGet d.tagsByEntryHash h).getD []).map
    (fun t => (recGet d.entriesByHash h, t))

/-- The `(entry, tag)` pairs of one outer-tag group: each entry hashed
under `t`, paired with `t` (same caveat as `Dex.entryGroup` for an
undefined `hashesByTag[t]`). -/
def Dex.tagGroup (d : Dex) (t : Tag) : List (Option EntryVal × Tag) :=
  ((recGet d.hashesByTag t).getD []).map
    (fun h => (recGet d.entriesByHash h, t))

/-- The sequence of `(entry, tag)` visits performed by `forEach(func,
outerLoopType)` (dex.ts lines 438-459), where `func` returning `BREAK` is
modelled by the visitor returning `true`. -/
def Dex.forEachVisits (d : Dex) (f : Option EntryVal → Tag → Bool)
    (outer : OuterLoopType) : List (Option EntryVal × Tag) :=
  match outer with
  | .entry => (d.allHashes.map (fun h => runGroup f (d.entryGroup h))).flatten
  | .tag => (d.allTags.map (fun t => runGroup f (d.tagGroup t))).flatten

/-! ### Well-formedness

The consistency invariants of spec §3, phrased with quantifiers bounded by
the stored lists so that they are decidable on concrete states. -/

/-- Invariants 1-3 of the data model, plus duplicate-freedom of the JS sets
and record keys and the identity law tying `entriesByHash` to `Dex.hash`. -/
@[mk_iff] structure WF (d : Dex) : Prop where
  tagsND : d.allTags.Nodup
  hashesND : d.allHashes.Nodup
  hbtKeysND : (d.hashesByTag.map Prod.fst).Nodup
  tbhKeysND : (d.tagsByEntryHash.map Prod.fst).Nodup
  ebhKeysND : (d.entriesByHash.map Prod.fst).Nodup
  hbtValsND : ∀ p ∈ d.hashesByTag, p.2.Nodup
  tbhValsND : ∀ p ∈ d.tagsByEntryHash, p.2.Nodup
  inv1a : ∀ t ∈ d.allTags, (recGet d.hashesByTag t).isSome
  inv1b : ∀ p ∈ d.hashesByTag, p.1 ∈ d.allTags
  inv2a : ∀ p ∈ d.hashesByTag, ∀ h ∈ p.2, p.1 ∈ (recGet d.tagsByEntryHash h).getD []
  inv2b : ∀ p ∈ d.tagsByEntryHash, ∀ t ∈ p.2, p.1 ∈ (recGet d.hashesByTag t).getD []
  inv3a : ∀ h ∈ d.allHashes, (recGet d.tagsByEntryHash h).isSome
  inv3b : ∀ p ∈ d.tagsByEntryHash, p.1 ∈ d.allHashes
  inv3c : ∀ h ∈ d.allHashes, (recGet d.entriesByHash h).isSome
  inv3d : ∀ p ∈ d.entriesByHash, p.1 ∈ d.allHashes
  hashOK : ∀ p ∈ d.entriesByHash, hashOf p.2 = some p.1

instance (d : Dex) : Decidable (WF d) :=
  decidable_of_iff' _ (wF_iff d)

/-- Invariant 5's zero-tag freedom: every retained entry hash has a
non-empty tag-set. -/
def Dex.NoEmptyTagSets (d : Dex) : Prop :=
  ∀ h ∈ d.allHashes, (recGet d.tagsByEntryHash h).getD [] ≠ []

instance (d : Dex) : Decidable d.NoEmptyTagSets := by
  unfold Dex.NoEmptyTagSets; infer_instance

/-- The half of invariant 1 that keeps the mutators from hitting an
`undefined` `hashesByTag` slot: every registered tag has a slot.  (Unlike
full `WF`, this survives every operation of the code, including the ones
that throw half-way.) -/
def Dex.TagsHaveSlots (d : Dex) : Prop :=
  ∀ t ∈ d.allTags, (recGet d.hashesByTag t).isSome

instance (d : Dex) : Decidable d.TagsHaveSlots := by
  unfold Dex.TagsHaveSlots; infer_instance

/-- The state properties that *every* operation of the code preserves
(including the ones that throw half-way): the registered tag and hash sets
are duplicate-free, every registered tag has a `hashesByTag` slot, and no
retained entry has an empty tag-set.  This is the corrected form of
invariant 5: it is broken only by adding a non-atomic entry with an empty
tag list. -/
def Dex.Tidy (d : Dex) : Prop :=
  d.allTags.Nodup ∧ d.allHashes.Nodup ∧ d.TagsHaveSlots ∧ d.NoEmptyTagSets

instance (d : Dex) : Decidable d.Tidy := by
  unfold Dex.Tidy; infer_instance

/-! ### Concrete fixtures used by the counterexample/evaluation theorems -/

/-- A dex holding the single atomic entry `"x"` tagged `"A"`. -/
def dexXA : Dex := (Dex.empty.add (.atom (.str "x")) [.str "A"]).dexOf

/-- A dex with entries `"x"` tagged `{A}`, `"y"` tagged `{B}` and `"z"`
tagged `{A, B}` — the Strict-vs-Or scenario of spec §8. -/
def dexXYZ : Dex :=
  (((Dex.empty.add (.atom (.str "x")) [.str "A"]).dexOf.add
      (.atom (.str "y")) [.str "B"]).dexOf.add
      (.atom (.str "z")) [.str "A", .str "B"]).dexOf

/-! ## Claim theorems -/

/-- **C1** (code divergence witness): the query core of `values` was left a
stub, so on the spec's own Strict-vs-Or scenario — entries `x {A}`, `y {B}`,
`z {A, B}` — `values` returns `[]` both for the plain tag-list call and for
the `Flags.Or` call, instead of the intersection `[z]` and the union
`[x, y, z]`; and the `Flags.Strict (= 0)` first argument is falsy, so that
call returns *all* entries instead of the intersection. -/
theorem c1_values_stub_returns_empty :
    dexXYZ.entries =
      [.atom (.str "x"), .atom (.str "y"), .atom (.str "z")] ∧
    dexXYZ.values (some (.arr [.str "A", .str "B"])) none = [] ∧
    dexXYZ.values (some (.single (.num 1)))
      (some (.arr [.str "A", .str "B"])) = [] ∧
    dexXYZ.values (some (.single (.num 0)))
      (some (.arr [.str "A", .str "B"])) = dexXYZ.entries := by
  decide

/-- **C2** (code divergence witness): after the predicate-form
`remove(() => true)` on a dex holding entry `"x"` tagged `"A"`, the entry
is gone from `tagsByEntryHash` but its hash is still recorded under
`hashesByTag["A"]` — the branch that detects an emptied tag forgets to
reassign `hashesByTag[t]` — so invariant 2
(`hash ∈ hashesByTag[tag] ⟺ tag ∈ tagsByEntryHash[hash]`) is violated. -/
theorem c2_remove_leaves_stale_hash :
    (dexXA.remove (.pred (fun _ _ => true)) false).valOf = some 1 ∧
    recGet (dexXA.remove (.pred (fun _ _ => true)) false).dexOf.hashesByTag
      (.str "A") = some [.str "x"] ∧
    recGet (dexXA.remove (.pred (fun _ _ => true)) false).dexOf.tagsByEntryHash
      (.str "x") = none := by
  decide

/-- **C3** (code divergence witness): adding the same entry with the same
tag a second time does not complete — the merge step
`uniqueTags.forEach(currentTags.add)` invokes `Set.prototype.add` unbound
and throws a `TypeError` — although the table counts happen to be unchanged
at the point of the throw. -/
theorem c3_second_add_raises_typeerror :
    (dexXA.add (.atom (.str "x")) [.str "A"]).errOf = some .typeError ∧
    (dexXA.add (.atom (.str "x")) [.str "A"]).dexOf.numberOfEntries = 1 ∧
    (dexXA.add (.atom (.str "x")) [.str "A"]).dexOf.allTags = [.str "A"] ∧
    recGet (dexXA.add (.atom (.str "x")) [.str "A"]).dexOf.hashesByTag
      (.str "A") = some [.str "x"] := by
  decide

/-- **C4** (code divergence witness): the direct form of `remove` deletes
the entry from every table but returns `0`, because `removedCount` is only
incremented inside the predicate branch. -/
theorem c4_direct_remove_returns_zero :
    (dexXA.remove (.direct (.atom (.str "x"))) false).valOf = some 0 ∧
    (dexXA.remove (.direct (.atom (.str "x"))) false).dexOf.allHashes = [] ∧
    (dexXA.remove (.direct (.atom (.str "x"))) false).dexOf.numberOfEntries
      = 0 := by
  decide

/-- **C9** (code divergence witness): after `drop("A")` on a dex whose only
entry is tagged `"A"`, the call returns normally and the named view
property for `"A"` is *still present*, holding the value `undefined`
(`recGet ... = some none`): `_updateIndex` deletes the property but then
unconditionally re-assigns `this[tag] =
this._hashesByTag[tag]?.toArray()...`, which is `undefined` for a dropped
tag. -/
theorem c9_dropped_view_present_undefined :
    (dexXA.drop [.str "A"]).errOf = none ∧
    recGet (dexXA.drop [.str "A"]).dexOf.views (.str "A") = some none := by
  decide

/-- **C7** (counterexample to the claim as stated): adding a non-atomic
entry with an empty tag list succeeds and retains the entry with an empty
tag-set — `allHashes` holds its hash while `tagsByEntryHash` maps it to the
empty set — exactly the state invariant 5 forbids (the repository's own
tests expect this state, e.g. the `({entry: TEntry})` constructor tests). -/
theorem c7_zero_tag_entry_retained :
    (Dex.empty.add (.anonObj "u") []).errOf = none ∧
    (Dex.empty.add (.anonObj "u") []).dexOf.allHashes = [.str "u"] ∧
    recGet (Dex.empty.add (.anonObj "u") []).dexOf.tagsByEntryHash
      (.str "u") = some [] := by
  decide

/-- The `uuid` getter is total and memoizing: whatever the `__uuid` slot
holds, the call returns a string and leaves the slot holding exactly that
string, and — since `uuidv4()` never returns the empty string — every later
access returns the same id no matter what its own draw is.  Hence a plain
object or function always hashes, to one stable id per object, which is the
id `EntryVal.anonObj` carries. -/
theorem uuidGet_total_and_memoizing (slot : Option String)
    (fresh fresh2 : String) (hf : fresh ≠ "") :
    (uuidGet slot fresh).2 = some (uuidGet slot fresh).1 ∧
    (uuidGet slot fresh).1 ≠ "" ∧
    uuidGet (uuidGet slot fresh).2 fresh2 =
      ((uuidGet slot fresh).1, (uuidGet slot fresh).2) := by
  unfold uuidGet
  cases slot with
  | none => simp [hf]
  | some id =>
    by_cases h : id = ""
    · simp [h, hf]
    · simp [h]

/-- `addEntryWithTags` can only throw the unbound-`add` `TypeError`, never
the identity error. -/
theorem addEntryWithTags_errOf_ne (d : Dex) (e : EntryVal) (h : HashKey)
    (ts : List Tag) :
    (Dex.addEntryWithTags d e h ts).errOf ≠ some .invalidHash := by
  unfold Dex.addEntryWithTags
  dsimp only
  split
  · split <;> simp [DexOutcome.errOf]
  · simp [DexOutcome.errOf]

/-- **C6**: `add` raises the identity error exactly when `Dex.hash` yields
`undefined` for the entry — which happens exactly for `null`/`undefined`
entries (atoms, unique-identified objects and plain objects/functions all
resolve) — and in that case the index is returned untouched: the hash is
resolved before any table, count or view is mutated. -/
theorem c6_add_identity_error (d : Dex) (entry : EntryVal) (tags : List Tag) :
    ((d.add entry tags).errOf = some .invalidHash ↔ hashOf entry = none) ∧
    (hashOf entry = none ↔ entry = .nullish) ∧
    (hashOf entry = none → d.add entry tags = .err d .invalidHash) := by
  refine ⟨?_, ?_, ?_⟩
  · cases entry with
    | nullish => simp [Dex.add, hashOf, DexOutcome.errOf]
    | atom a =>
      simp only [Dex.add, hashOf]
      split
      · simp [DexOutcome.errOf]
      · simpa using addEntryWithTags_errOf_ne d (.atom a) a tags
    | uniqueObj id =>
      simp only [Dex.add, hashOf]
      simpa using addEntryWithTags_errOf_ne d (.uniqueObj id) (.str id) tags
    | anonObj uuid =>
      simp only [Dex.add, hashOf]
      simpa using addEntryWithTags_errOf_ne d (.anonObj uuid) (.str uuid) tags
  · cases entry <;> simp [hashOf]
  · intro hn
    cases entry <;> simp_all [hashOf, Dex.add]

/-- **C6 witness**: the theorem applied to the empty dex and a `null`
entry. -/
theorem c6_add_identity_error_witness :
    ((Dex.empty.add .nullish []).errOf = some .invalidHash ↔
      hashOf .nullish = none) ∧
    (hashOf .nullish = none ↔ EntryVal.nullish = .nullish) ∧
    (hashOf .nullish = none → Dex.empty.add .nullish [] = .err Dex.empty .invalidHash) :=
  c6_add_identity_error Dex.empty .nullish []

/-- **C10**: for a single (non-array) first argument whose value is a key
of the compiled `Flags` enum object — a member name such as `"Or"` or an
enum numeric value `0, 1, 2, 4, 8, 16` (and their decimal-string forms,
via the reverse mapping) — both query dispatchers treat the argument as
query flags: `_splitForTagsOrOptions` forwards it as the options argument
of the base query with only `additionalTags` as the tag list, and an
`_addFlags`-wrapped sub-query method merges it into the flag mask; in
neither case does the value reach the tag list, so such a tag can never be
queried for by passing it first. -/
theorem c10_flagslike_first_arg_is_options {α β : Type}
    (baseS : Option (List Tag) → Option Atom → α)
    (baseA : Option QArg → Option QArg → β) (extra : Int)
    (a : Atom) (more : Option QArg) (hf : inFlags a = true) :
    splitForTagsOrOptions baseS (some (.single a)) more
      = baseS (normAdditional more) (some a) ∧
    addFlags baseA extra (some (.single a)) more
      = baseA (some (.single (.num (Int.lor (jsToInt32 a) extra)))) more := by
  constructor
  · simp [splitForTagsOrOptions, hf]
  · simp [addFlags, hf]

/-- **C10 witness**: the theorem applied to pair-returning bases, the tag
`"Or"` and `extra = 16`. -/
theorem c10_flagslike_first_arg_is_options_witness :
    inFlags (.str "Or") = true ∧
    (splitForTagsOrOptions (fun ts o => (ts, o)) (some (.single (.str "Or"))) none
        = (fun (ts : Option (List Tag)) (o : Option Atom) => (ts, o))
            (normAdditional none) (some (.str "Or")) ∧
      addFlags (fun x y => (x, y)) 16 (some (.single (.str "Or"))) none
        = (fun (x y : Option QArg) => (x, y))
            (some (.single (.num (Int.lor (jsToInt32 (.str "Or")) 16)))) none) :=
  ⟨by decide,
    c10_flagslike_first_arg_is_options
      (fun ts o => (ts, o)) (fun x y => (x, y)) 16 (.str "Or") none (by decide)⟩

/-! ## Lemmas about the container primitives -/

theorem mem_setAdd {α : Type} [DecidableEq α] {s : List α} {a b : α} :
    a ∈ setAdd s b ↔ a ∈ s ∨ a = b := by
  unfold setAdd
  split
  · rename_i hb
    constructor
    · exact Or.inl
    · rintro (h | rfl) <;> assumption
  · simp

theorem setAdd_nodup {α : Type} [DecidableEq α] {s : List α} (h : s.Nodup)
    (b : α) : (setAdd s b).Nodup := by
  unfold setAdd
  split
  · exact h
  · rename_i hb
    simp [List.nodup_append, h, hb]

theorem mem_foldl_setAdd {α : Type} [DecidableEq α] (l : List α) (acc : List α)
    (a : α) : a ∈ l.foldl setAdd acc ↔ a ∈ acc ∨ a ∈ l := by
  induction l generalizing acc with
  | nil => simp
  | cons x xs ih =>
    rw [List.foldl_cons, ih]
    simp [mem_setAdd]
    tauto

theorem foldl_setAdd_nodup {α : Type} [DecidableEq α] (l : List α)
    {acc : List α} (h : acc.Nodup) : (l.foldl setAdd acc).Nodup := by
  induction l generalizing acc with
  | nil => exact h
  | cons x xs ih => exact ih (setAdd_nodup h x)

theorem mem_setOfList {α : Type} [DecidableEq α] {l : List α} {a : α} :
    a ∈ setOfList l ↔ a ∈ l := by
  simp [setOfList, mem_foldl_setAdd]

theorem setOfList_nodup {α : Type} [DecidableEq α] (l : List α) :
    (setOfList l).Nodup :=
  foldl_setAdd_nodup l List.nodup_nil

theorem setOfList_ne_nil {α : Type} [DecidableEq α] {l : List α} (h : l ≠ []) :
    setOfList l ≠ [] := by
  intro he
  rcases List.exists_mem_of_ne_nil l h with ⟨a, ha⟩
  have : a ∈ setOfList l := mem_setOfList.mpr ha
  simp [he] at this

theorem recGet_cons {κ β : Type} [DecidableEq κ] (p : κ × β)
    (m : List (κ × β)) (k : κ) :
    recGet (p :: m) k = if p.1 = k then some p.2 else recGet m k := by
  unfold recGet
  by_cases h : p.1 = k
  · rw [List.find?_cons_of_pos] <;> simp [h]
  · rw [List.find?_cons_of_neg] <;> simp [h]

theorem recGet_isSome_iff {κ β : Type} [DecidableEq κ] {m : List (κ × β)}
    {k : κ} : (recGet m k).isSome ↔ k ∈ m.map Prod.fst := by
  induction m with
  | nil => simp [recGet]
  | cons p rest ih =>
    rw [recGet_cons]
    by_cases h : p.1 = k
    · simp [h]
    · rw [if_neg h, ih, List.map_cons]
      constructor
      · exact fun hk => List.mem_cons_of_mem _ hk
      · intro hk
        rcases List.mem_cons.mp hk with he | hk2
        · exact absurd he.symm h
        · exact hk2

theorem recGet_eq_none_iff {κ β : Type} [DecidableEq κ] {m : List (κ × β)}
    {k : κ} : recGet m k = none ↔ k ∉ m.map Prod.fst := by
  rw [← recGet_isSome_iff, Option.not_isSome_iff_eq_none]

theorem recGet_append {κ β : Type} [DecidableEq κ] (m₁ m₂ : List (κ × β))
    (k : κ) :
    recGet (m₁ ++ m₂) k =
      match recGet m₁ k with
      | some v => some v
      | none => recGet m₂ k := by
  induction m₁ with
  | nil => simp [recGet]
  | cons p rest ih =>
    by_cases h : p.1 = k <;> simp [recGet_cons, h, ih]

theorem recGet_map_update {κ β : Type} [DecidableEq κ] (m : List (κ × β))
    (k : κ) (v : β) :
    recGet (m.map (fun p => if p.1 = k then (k, v) else p)) k
      = if k ∈ m.map Prod.fst then some v else none := by
  induction m with
  | nil => simp [recGet]
  | cons p rest ih =>
    by_cases h : p.1 = k
    · simp [recGet_cons, h, ih]
    · simp only [List.map_cons, if_neg h, recGet_cons, ih]
      have hmem : (k ∈ p.1 :: rest.map Prod.fst) → k ∈ rest.map Prod.fst := by
        intro hk
        rcases List.mem_cons.mp hk with he | hk2
        · exact absurd he.symm h
        · exact hk2
      by_cases hk : k ∈ rest.map Prod.fst
      · rw [if_pos hk, if_pos (List.mem_cons_of_mem _ hk)]
      · rw [if_neg hk, if_neg (fun hc => hk (hmem hc))]

theorem recGet_map_update_ne {κ β : Type} [DecidableEq κ] (m : List (κ × β))
    {k k' : κ} (v : β) (hne : k' ≠ k) :
    recGet (m.map (fun p => if p.1 = k then (k, v) else p)) k'
      = recGet m k' := by
  induction m with
  | nil => simp [recGet]
  | cons p rest ih =>
    by_cases h : p.1 = k
    · have : ¬ (k = k') := fun he => hne he.symm
      simp [recGet_cons, h, ih, this]
    · simp [recGet_cons, h, ih]

theorem recGet_recSet_self {κ β : Type} [DecidableEq κ] (m : List (κ × β))
    (k : κ) (v : β) : recGet (recSet m k v) k = some v := by
  unfold recSet
  split
  · rename_i hs
    rw [recGet_map_update]
    have hk : k ∈ m.map Prod.fst := by
      rw [← recGet_isSome_iff]
      unfold recGet
      simpa using hs
    rw [if_pos hk]
  · rename_i hs
    rw [recGet_append]
    have hn : recGet m k = none := by
      unfold recGet
      rw [Option.map_eq_none']
      exact Option.not_isSome_iff_eq_none.mp (by simpa using hs)
    simp [hn, recGet_cons]

theorem recGet_recSet_ne {κ β : Type} [DecidableEq κ] (m : List (κ × β))
    {k k' : κ} (v : β) (hne : k' ≠ k) :
    recGet (recSet m k v) k' = recGet m k' := by
  unfold recSet
  split
  · exact recGet_map_update_ne m v hne
  · rw [recGet_append]
    cases hm : recGet m k' with
    | some w => simp
    | none =>
      have hc : ¬ k = k' := fun hc => hne hc.symm
      simp [recGet_cons, hc, recGet]

theorem recGet_recDelete_self {κ β : Type} [DecidableEq κ] (m : List (κ × β))
    (k : κ) : recGet (recDelete m k) k = none := by
  unfold recGet recDelete
  rw [Option.map_eq_none', List.find?_eq_none]
  intro p hp
  have := (List.mem_filter.mp hp).2
  simp at this ⊢
  exact this

theorem recGet_recDelete_ne {κ β : Type} [DecidableEq κ] (m : List (κ × β))
    {k k' : κ} (hne : k' ≠ k) :
    recGet (recDelete m k) k' = recGet m k' := by
  induction m with
  | nil => rfl
  | cons p rest ih =>
    simp only [recDelete] at ih ⊢
    rw [List.filter_cons]
    by_cases h : p.1 = k
    · rw [if_neg (by simp [h])]
      rw [ih, recGet_cons, if_neg (by rw [h]; exact fun he => hne he.symm)]
    · rw [if_pos (by simp [h])]
      rw [recGet_cons, recGet_cons, ih]

theorem recSet_map_fst {κ β : Type} [DecidableEq κ] (m : List (κ × β))
    (k : κ) (v : β) :
    (recSet m k v).map Prod.fst =
      if (recGet m k).isSome then m.map Prod.fst
      else m.map Prod.fst ++ [k] := by
  have hiff : (recGet m k).isSome = (m.find? (fun p => p.1 = k)).isSome := by
    unfold recGet
    cases m.find? (fun p => p.1 = k) <;> rfl
  unfold recSet
  split
  · rename_i hs
    rw [if_pos (by rw [hiff]; exact hs)]
    rw [List.map_map]
    apply List.map_congr_left
    intro p _
    by_cases h : p.1 = k <;> simp [h]
  · rename_i hs
    rw [if_neg (by rw [hiff]; exact hs)]
    simp

theorem recSet_keys_nodup {κ β : Type} [DecidableEq κ] {m : List (κ × β)}
    (nd : (m.map Prod.fst).Nodup) (k : κ) (v : β) :
    ((recSet m k v).map Prod.fst).Nodup := by
  rw [recSet_map_fst]
  split
  · exact nd
  · rename_i hs
    have : k ∉ m.map Prod.fst := by
      rw [← recGet_isSome_iff]
      simp_all
    simp [List.nodup_append, nd, this]

theorem recDelete_sublist {κ β : Type} [DecidableEq κ] (m : List (κ × β))
    (k : κ) : (recDelete m k).Sublist m :=
  List.filter_sublist m

theorem recDelete_keys_nodup {κ β : Type} [DecidableEq κ] {m : List (κ × β)}
    (nd : (m.map Prod.fst).Nodup) (k : κ) :
    ((recDelete m k).map Prod.fst).Nodup :=
  (((recDelete_sublist m k).map Prod.fst).nodup nd)

theorem mem_recDelete {κ β : Type} [DecidableEq κ] {m : List (κ × β)} {k : κ}
    {p : κ × β} : p ∈ recDelete m k ↔ p ∈ m ∧ ¬ p.1 = k := by
  simp [recDelete, List.mem_filter]

theorem mem_recSet {κ β : Type} [DecidableEq κ] {m : List (κ × β)} {k : κ}
    {v : β} {p : κ × β} (hp : p ∈ recSet m k v) :
    p = (k, v) ∨ (p ∈ m ∧ ¬ p.1 = k) := by
  unfold recSet at hp
  split at hp
  · rcases List.mem_map.mp hp with ⟨q, hq, he⟩
    by_cases h : q.1 = k
    · left; simp [h] at he; exact he.symm
    · right
      rw [if_neg h] at he
      exact ⟨he ▸ hq, he ▸ h⟩
  · rename_i hs
    rcases List.mem_append.mp hp with h | h
    · right
      refine ⟨h, ?_⟩
      have hnone : recGet m k = none := by
        unfold recGet
        rw [Option.map_eq_none']
        exact Option.not_isSome_iff_eq_none.mp (by simpa using hs)
      rw [recGet_eq_none_iff] at hnone
      intro hk
      apply hnone
      rw [← hk]
      exact List.mem_map_of_mem Prod.fst h
    · left; simpa using h

theorem mem_of_recGet_eq_some {κ β : Type} [DecidableEq κ]
    {m : List (κ × β)} {k : κ} {v : β} (h : recGet m k = some v) :
    (k, v) ∈ m := by
  unfold recGet at h
  cases hf : m.find? (fun p => p.1 = k) with
  | none => simp [hf] at h
  | some p =>
    have hm := List.mem_of_find?_eq_some hf
    have hk := List.find?_some hf
    rw [hf] at h
    simp at hk h
    cases p
    simp_all

theorem recGet_eq_some_of_mem {κ β : Type} [DecidableEq κ]
    {m : List (κ × β)} {k : κ} {v : β} (nd : (m.map Prod.fst).Nodup)
    (hp : (k, v) ∈ m) : recGet m k = some v := by
  induction m with
  | nil => simp at hp
  | cons q rest ih =>
    rcases List.mem_cons.mp hp with he | hp2
    · rw [← he]
      simp [recGet_cons]
    · have h1 : ¬ q.1 = k := by
        intro hqk
        have hk2 : k ∈ rest.map Prod.fst := by
          simpa using List.mem_map_of_mem Prod.fst hp2
        rw [List.map_cons, List.nodup_cons] at nd
        exact nd.1 (by rw [hqk]; exact hk2)
      rw [recGet_cons, if_neg h1]
      rw [List.map_cons, List.nodup_cons] at nd
      exact ih nd.2 hp2

/-! ## Field-preservation lemmas for the mutators -/

@[simp] theorem updateIndex_numberOfEntries (d : Dex) (t : Tag) :
    (d.updateIndex t).numberOfEntries = d.numberOfEntries := by
  unfold Dex.updateIndex; dsimp only; split <;> rfl

@[simp] theorem updateIndex_allTags (d : Dex) (t : Tag) :
    (d.updateIndex t).allTags = d.allTags := by
  unfold Dex.updateIndex; dsimp only; split <;> rfl

@[simp] theorem updateIndex_allHashes (d : Dex) (t : Tag) :
    (d.updateIndex t).allHashes = d.allHashes := by
  unfold Dex.updateIndex; dsimp only; split <;> rfl

@[simp] theorem updateIndex_hashesByTag (d : Dex) (t : Tag) :
    (d.updateIndex t).hashesByTag = d.hashesByTag := by
  unfold Dex.updateIndex; dsimp only; split <;> rfl

@[simp] theorem updateIndex_tagsByEntryHash (d : Dex) (t : Tag) :
    (d.updateIndex t).tagsByEntryHash = d.tagsByEntryHash := by
  unfold Dex.updateIndex; dsimp only; split <;> rfl

@[simp] theorem updateIndex_entriesByHash (d : Dex) (t : Tag) :
    (d.updateIndex t).entriesByHash = d.entriesByHash := by
  unfold Dex.updateIndex; dsimp only; split <;> rfl

@[simp] theorem addTagStep_allTags (d : Dex) (h : HashKey) (t : Tag) :
    (Dex.addTagStep h d t).allTags = setAdd d.allTags t := by
  unfold Dex.addTagStep; dsimp only; split <;> simp

@[simp] theorem addTagStep_allHashes (d : Dex) (h : HashKey) (t : Tag) :
    (Dex.addTagStep h d t).allHashes = d.allHashes := by
  unfold Dex.addTagStep; dsimp only; split <;> simp

@[simp] theorem addTagStep_tagsByEntryHash (d : Dex) (h : HashKey) (t : Tag) :
    (Dex.addTagStep h d t).tagsByEntryHash = d.tagsByEntryHash := by
  unfold Dex.addTagStep; dsimp only; split <;> simp

@[simp] theorem addTagStep_entriesByHash (d : Dex) (h : HashKey) (t : Tag) :
    (Dex.addTagStep h d t).entriesByHash = d.entriesByHash := by
  unfold Dex.addTagStep; dsimp only; split <;> simp

theorem addTagStep_hashesByTag_self (d : Dex) (h : HashKey) (t : Tag) :
    recGet (Dex.addTagStep h d t).hashesByTag t =
      some (match recGet d.hashesByTag t with
            | some s => setAdd s h
            | none => [h]) := by
  unfold Dex.addTagStep; dsimp only
  split <;> rename_i s hm <;> simp [hm, recGet_recSet_self]

theorem addTagStep_hashesByTag_ne (d : Dex) (h : HashKey) {t t' : Tag}
    (hne : t' ≠ t) :
    recGet (Dex.addTagStep h d t).hashesByTag t' = recGet d.hashesByTag t' := by
  unfold Dex.addTagStep; dsimp only
  split <;> simp [recGet_recSet_ne _ _ hne]

theorem foldl_addTagStep_allHashes (ts : List Tag) (d : Dex) (h : HashKey) :
    (ts.foldl (Dex.addTagStep h) d).allHashes = d.allHashes := by
  induction ts generalizing d with
  | nil => rfl
  | cons t rest ih => rw [List.foldl_cons, ih]; simp

theorem foldl_addTagStep_tagsByEntryHash (ts : List Tag) (d : Dex)
    (h : HashKey) :
    (ts.foldl (Dex.addTagStep h) d).tagsByEntryHash = d.tagsByEntryHash := by
  induction ts generalizing d with
  | nil => rfl
  | cons t rest ih => rw [List.foldl_cons, ih]; simp

theorem foldl_addTagStep_entriesByHash (ts : List Tag) (d : Dex)
    (h : HashKey) :
    (ts.foldl (Dex.addTagStep h) d).entriesByHash = d.entriesByHash := by
  induction ts generalizing d with
  | nil => rfl
  | cons t rest ih => rw [List.foldl_cons, ih]; simp

theorem foldl_addTagStep_mem_allTags (ts : List Tag) (d : Dex) (h : HashKey)
    (t' : Tag) :
    t' ∈ (ts.foldl (Dex.addTagStep h) d).allTags ↔
      t' ∈ d.allTags ∨ t' ∈ ts := by
  induction ts generalizing d with
  | nil => simp
  | cons t rest ih =>
    rw [List.foldl_cons, ih]
    simp [mem_setAdd]
    tauto

theorem foldl_addTagStep_allTags_nodup (ts : List Tag) {d : Dex}
    (hd : d.allTags.Nodup) (h : HashKey) :
    (ts.foldl (Dex.addTagStep h) d).allTags.Nodup := by
  induction ts generalizing d with
  | nil => exact hd
  | cons t rest ih =>
    rw [List.foldl_cons]
    exact ih (by simpa using setAdd_nodup hd t)

theorem foldl_addTagStep_hashesByTag_isSome (ts : List Tag) (d : Dex)
    (h : HashKey) (t' : Tag) :
    (recGet (ts.foldl (Dex.addTagStep h) d).hashesByTag t').isSome ↔
      (recGet d.hashesByTag t').isSome ∨ t' ∈ ts := by
  induction ts generalizing d with
  | nil => simp
  | cons t rest ih =>
    rw [List.foldl_cons, ih]
    by_cases he : t' = t
    · subst he
      rw [addTagStep_hashesByTag_self]
      simp
    · rw [addTagStep_hashesByTag_ne d h he]
      simp [he]

/-! ## Preservation of `Tidy` by the mutators

`Tidy` (duplicate-free tag/hash sets, slots for all tags, no retained
zero-tag entry) survives every operation except adding a non-atomic entry
with an empty tag list; these lemmas walk every code path, including the
states left behind by the thrown `TypeError`s. -/

theorem tidy_updateIndex {d : Dex} (hd : d.Tidy) (t : Tag) :
    (d.updateIndex t).Tidy := by
  obtain ⟨h1, h2, h3, h4⟩ := hd
  refine ⟨by simpa using h1, by simpa using h2, ?_, ?_⟩
  · intro t' ht'
    rw [updateIndex_allTags] at ht'
    rw [updateIndex_hashesByTag]
    exact h3 t' ht'
  · intro h' hh'
    rw [updateIndex_allHashes] at hh'
    rw [updateIndex_tagsByEntryHash]
    exact h4 h' hh'

theorem tidy_removeItemAt {d : Dex} (hd : d.Tidy) (h : HashKey) :
    (d.removeItemAt h).Tidy := by
  obtain ⟨h1, h2, h3, h4⟩ := hd
  refine ⟨h1, h2.erase h, ?_, ?_⟩
  · intro t' ht'
    exact h3 t' ht'
  · intro h' hh'
    have hm := h2.mem_erase_iff.mp hh'
    show (recGet (recDelete d.tagsByEntryHash h) h').getD [] ≠ []
    rw [recGet_recDelete_ne _ hm.1]
    exact h4 h' hm.2

theorem tidy_addTagStep {d : Dex} (hd : d.Tidy) (h : HashKey) (t : Tag) :
    (Dex.addTagStep h d t).Tidy := by
  obtain ⟨h1, h2, h3, h4⟩ := hd
  refine ⟨by simpa using setAdd_nodup h1 t, by simpa using h2, ?_, ?_⟩
  · intro t' ht'
    rw [addTagStep_allTags] at ht'
    by_cases he : t' = t
    · subst he
      rw [addTagStep_hashesByTag_self]
      simp
    · rw [addTagStep_hashesByTag_ne d h he]
      rcases mem_setAdd.mp ht' with hm | hm
      · exact h3 t' hm
      · exact absurd hm he
  · intro h' hh'
    rw [addTagStep_allHashes] at hh'
    rw [addTagStep_tagsByEntryHash]
    exact h4 h' hh'

theorem tidy_foldl_addTagStep {d : Dex} (hd : d.Tidy) (h : HashKey)
    (ts : List Tag) : ((ts.foldl (Dex.addTagStep h) d)).Tidy := by
  induction ts generalizing d with
  | nil => exact hd
  | cons t rest ih => exact ih (tidy_addTagStep hd h t)

theorem tidy_registerHash {d : Dex} (hd : d.Tidy) {h : HashKey} (e : EntryVal)
    (hne : (recGet d.tagsByEntryHash h).getD [] ≠ []) :
    (d.registerHash h e).Tidy := by
  obtain ⟨h1, h2, h3, h4⟩ := hd
  unfold Dex.registerHash
  split
  · exact ⟨h1, h2, h3, h4⟩
  · refine ⟨h1, setAdd_nodup h2 h, h3, ?_⟩
    intro h' hh'
    rcases mem_setAdd.mp hh' with hm | rfl
    · exact h4 h' hm
    · exact hne

theorem tidy_addEntryWithTags {d : Dex} (hd : d.Tidy) (e : EntryVal)
    (h : HashKey) {ts : List Tag} (hne : ts ≠ []) :
    ((d.addEntryWithTags e h ts).dexOf).Tidy := by
  unfold Dex.addEntryWithTags
  dsimp only
  have hd1 := tidy_foldl_addTagStep hd h (setOfList ts)
  have hu : setOfList ts ≠ [] := setOfList_ne_nil hne
  have htbh := foldl_addTagStep_tagsByEntryHash (setOfList ts) d h
  cases hm : recGet ((setOfList ts).foldl (Dex.addTagStep h) d).tagsByEntryHash h with
  | some ts0 =>
    rw [if_neg (by simpa [List.isEmpty_iff] using hu)]
    exact hd1
  | none =>
    apply tidy_registerHash
    · obtain ⟨h1, h2, h3, h4⟩ := hd1
      refine ⟨h1, h2, h3, ?_⟩
      intro h' hh'
      by_cases he : h' = h
      · subst he
        show (recGet (recSet _ h' (setOfList ts)) h').getD [] ≠ []
        rw [recGet_recSet_self]
        simpa using hu
      · show (recGet (recSet _ h (setOfList ts)) h').getD [] ≠ []
        rw [recGet_recSet_ne _ _ he]
        exact h4 h' hh'
    · show (recGet (recSet _ h (setOfList ts)) h).getD [] ≠ []
      rw [recGet_recSet_self]
      simpa using hu

theorem tidy_add {d : Dex} (hd : d.Tidy) (e : EntryVal) (ts : List Tag)
    (hok : ts ≠ [] ∨ e.isAtomic = true) :
    ((d.add e ts).dexOf).Tidy := by
  unfold Dex.add
  cases e with
  | nullish => exact hd
  | uniqueObj id =>
    apply tidy_addEntryWithTags hd
    rcases hok with hne | hat
    · exact hne
    · simp [EntryVal.isAtomic] at hat
  | anonObj u =>
    apply tidy_addEntryWithTags hd
    rcases hok with hne | hat
    · exact hne
    · simp [EntryVal.isAtomic] at hat
  | atom a =>
    dsimp only [hashOf]
    by_cases hts : ts.isEmpty
    · rw [if_pos hts]
      apply tidy_updateIndex
      obtain ⟨h1, h2, h3, h4⟩ := hd
      by_cases hsome : (recGet d.hashesByTag a).isSome
      · rw [if_pos hsome]
        refine ⟨setAdd_nodup h1 a, h2, ?_, h4⟩
        intro t' ht'
        rcases mem_setAdd.mp ht' with hm | rfl
        · exact h3 t' hm
        · exact hsome
      · rw [if_neg hsome]
        refine ⟨setAdd_nodup h1 a, h2, ?_, h4⟩
        intro t' ht'
        show (recGet (recSet d.hashesByTag a []) t').isSome
        by_cases he : t' = a
        · subst he
          rw [recGet_recSet_self]
          rfl
        · rw [recGet_recSet_ne _ _ he]
          rcases mem_setAdd.mp ht' with hm | hm
          · exact h3 t' hm
          · exact absurd hm he
    · rw [if_neg hts]
      exact tidy_addEntryWithTags hd _ _ (by simpa [List.isEmpty_iff] using hts)

theorem tidy_removeMatchLoop (f : Option EntryVal → Tag → Bool) (t : Tag)
    (hs : List HashKey) :
    ∀ {d : Dex}, d.Tidy → ∀ (cnt : Nat) (survivors : List HashKey),
      (Dex.removeMatchLoop f t d cnt survivors hs).1.Tidy ∧
      (Dex.removeMatchLoop f t d cnt survivors hs).1.hashesByTag
        = d.hashesByTag ∧
      (Dex.removeMatchLoop f t d cnt survivors hs).1.allTags = d.allTags := by
  induction hs with
  | nil =>
    intro d hd cnt survivors
    exact ⟨hd, rfl, rfl⟩
  | cons h rest ih =>
    intro d hd cnt survivors
    unfold Dex.removeMatchLoop
    dsimp only
    by_cases hf : f (recGet d.entriesByHash h) t = true
    · rw [if_pos hf]
      cases hm : recGet d.tagsByEntryHash h with
      | none => exact ⟨hd, rfl, rfl⟩
      | some ts0 =>
        dsimp only
        by_cases hemp : (ts0.erase t).isEmpty = true
        · rw [if_pos hemp]
          have hstep :
              (({d with tagsByEntryHash :=
                  recSet d.tagsByEntryHash h (ts0.erase t)}).removeItemAt h).Tidy := by
            obtain ⟨h1, h2, h3, h4⟩ := hd
            refine ⟨h1, h2.erase h, h3, ?_⟩
            intro h' hh'
            have hm2 := h2.mem_erase_iff.mp hh'
            show (recGet (recDelete
              (recSet d.tagsByEntryHash h (ts0.erase t)) h) h').getD [] ≠ []
            rw [recGet_recDelete_ne _ hm2.1, recGet_recSet_ne _ _ hm2.1]
            exact h4 h' hm2.2
          exact ih hstep (cnt + 1) survivors
        · rw [if_neg hemp]
          have hstep :
              ({d with tagsByEntryHash :=
                  recSet d.tagsByEntryHash h (ts0.erase t)} : Dex).Tidy := by
            obtain ⟨h1, h2, h3, h4⟩ := hd
            refine ⟨h1, h2, h3, ?_⟩
            intro h' hh'
            show (recGet (recSet d.tagsByEntryHash h (ts0.erase t)) h').getD []
              ≠ []
            by_cases he : h' = h
            · subst he
              rw [recGet_recSet_self]
              simpa [List.isEmpty_iff] using hemp
            · rw [recGet_recSet_ne _ _ he]
              exact h4 h' hh'
          exact ih hstep cnt survivors
    · rw [if_neg hf]
      exact ih hd cnt (survivors ++ [h])

theorem tidy_removePredTagLoop (f : Option EntryVal → Tag → Bool)
    (tl : List Tag) :
    ∀ {d : Dex}, d.Tidy → ∀ (cnt : Nat) (emptied : List Tag),
      (Dex.removePredTagLoop f d cnt emptied tl).1.Tidy := by
  induction tl with
  | nil =>
    intro d hd cnt emptied
    exact hd
  | cons t rest ih =>
    intro d hd cnt emptied
    unfold Dex.removePredTagLoop
    cases hm : recGet d.hashesByTag t with
    | none => exact hd
    | some hs =>
      dsimp only
      rcases hres : Dex.removeMatchLoop f t d cnt [] hs with ⟨d1, cnt1, rest1⟩
      obtain ⟨survivors, err⟩ := rest1
      have hml := tidy_removeMatchLoop f t hs hd cnt []
      rw [hres] at hml
      obtain ⟨hTidy1, hHbt1, hTags1⟩ := hml
      cases err with
      | some e => exact hTidy1
      | none =>
        dsimp only
        refine ih (tidy_updateIndex ?_ t) cnt1 _
        split
        · exact hTidy1
        · obtain ⟨h1, h2, h3, h4⟩ := hTidy1
          refine ⟨h1, h2, ?_, h4⟩
          intro t' ht'
          show (recGet (recSet d1.hashesByTag t (setOfList survivors))
            t').isSome
          by_cases he : t' = t
          · subst he
            rw [recGet_recSet_self]
            rfl
          · rw [recGet_recSet_ne _ _ he]
            exact h3 t' ht'

theorem tidy_removeDirectTagLoop (h : HashKey) (tl : List Tag) :
    ∀ {d : Dex}, d.Tidy → ∀ (emptied : List Tag),
      (Dex.removeDirectTagLoop h d emptied tl).1.Tidy := by
  induction tl with
  | nil =>
    intro d hd emptied
    exact hd
  | cons t rest ih =>
    intro d hd emptied
    unfold Dex.removeDirectTagLoop
    cases hm : recGet d.hashesByTag t with
    | none => exact hd
    | some s =>
      dsimp only
      have hd1 :
          ({d with hashesByTag := recSet d.hashesByTag t (s.erase h)} : Dex).Tidy := by
        obtain ⟨h1, h2, h3, h4⟩ := hd
        refine ⟨h1, h2, ?_, h4⟩
        intro t' ht'
        show (recGet (recSet d.hashesByTag t (s.erase h)) t').isSome
        by_cases he : t' = t
        · subst he
          rw [recGet_recSet_self]
          rfl
        · rw [recGet_recSet_ne _ _ he]
          exact h3 t' ht'
      exact ih hd1 _

theorem tidy_dropHashLoop (t : Tag) (hs : List HashKey) :
    ∀ {d : Dex}, d.Tidy → ∀ (eff : List (Option EntryVal)),
      (Dex.dropHashLoop t d eff hs).1.Tidy ∧
      (Dex.dropHashLoop t d eff hs).1.hashesByTag = d.hashesByTag ∧
      (Dex.dropHashLoop t d eff hs).1.allTags = d.allTags := by
  induction hs with
  | nil =>
    intro d hd eff
    exact ⟨hd, rfl, rfl⟩
  | cons h rest ih =>
    intro d hd eff
    unfold Dex.dropHashLoop
    dsimp only
    cases hm : recGet d.tagsByEntryHash h with
    | none => exact ⟨hd, rfl, rfl⟩
    | some ts0 =>
      dsimp only
      by_cases hemp : (ts0.erase t).isEmpty = true
      · rw [if_pos hemp]
        have hstep :
            (({d with tagsByEntryHash :=
                recSet d.tagsByEntryHash h (ts0.erase t)}).removeItemAt h).Tidy := by
          obtain ⟨h1, h2, h3, h4⟩ := hd
          refine ⟨h1, h2.erase h, h3, ?_⟩
          intro h' hh'
          have hm2 := h2.mem_erase_iff.mp hh'
          show (recGet (recDelete
            (recSet d.tagsByEntryHash h (ts0.erase t)) h) h').getD [] ≠ []
          rw [recGet_recDelete_ne _ hm2.1, recGet_recSet_ne _ _ hm2.1]
          exact h4 h' hm2.2
        exact ih hstep _
      · rw [if_neg hemp]
        have hstep :
            ({d with tagsByEntryHash :=
                recSet d.tagsByEntryHash h (ts0.erase t)} : Dex).Tidy := by
          obtain ⟨h1, h2, h3, h4⟩ := hd
          refine ⟨h1, h2, h3, ?_⟩
          intro h' hh'
          show (recGet (recSet d.tagsByEntryHash h (ts0.erase t)) h').getD []
            ≠ []
          by_cases he : h' = h
          · subst he
            rw [recGet_recSet_self]
            simpa [List.isEmpty_iff] using hemp
          · rw [recGet_recSet_ne _ _ he]
            exact h4 h' hh'
        exact ih hstep _

theorem tidy_dropTags (tl : List Tag) :
    ∀ {d : Dex}, d.Tidy → ∀ (eff : List (Option EntryVal)),
      ((Dex.dropTags d eff tl).dexOf).Tidy := by
  induction tl with
  | nil =>
    intro d hd eff
    exact hd
  | cons t rest ih =>
    intro d hd eff
    unfold Dex.dropTags
    dsimp only [setDeleteB]
    have hd1 : ({d with allTags := d.allTags.erase t} : Dex).Tidy := by
      obtain ⟨h1, h2, h3, h4⟩ := hd
      refine ⟨h1.erase t, h2, ?_, h4⟩
      intro t' ht'
      exact h3 t' (List.mem_of_mem_erase ht')
    by_cases hmem : t ∈ d.allTags
    · rw [if_pos (by simpa using hmem)]
      cases hm : recGet d.hashesByTag t with
      | none => exact hd1
      | some hs =>
        dsimp only
        rcases hres : Dex.dropHashLoop t
            {d with allTags := d.allTags.erase t} eff hs with ⟨d2, rest2⟩
        obtain ⟨eff2, err⟩ := rest2
        have hhl := tidy_dropHashLoop t hs hd1 eff
        rw [hres] at hhl
        obtain ⟨hTidy2, hHbt2, hTags2⟩ := hhl
        cases err with
        | some e => exact hTidy2
        | none =>
          dsimp only
          have hd3 :
              ({d2 with hashesByTag := recDelete d2.hashesByTag t} : Dex).Tidy := by
            obtain ⟨h1, h2, h3, h4⟩ := hTidy2
            refine ⟨h1, h2, ?_, h4⟩
            intro t' ht'
            have hTags2' : d2.allTags = d.allTags.erase t := hTags2
            have ht'2 : t' ∈ d.allTags.erase t := by
              rw [← hTags2']
              exact ht'
            have hne : t' ≠ t := ((hd.1).mem_erase_iff.mp ht'2).1
            show (recGet (recDelete d2.hashesByTag t) t').isSome
            rw [recGet_recDelete_ne _ hne]
            exact h3 t' ht'
          exact ih (tidy_updateIndex hd3 t) eff2
    · rw [if_neg (by simpa using hmem)]
      exact ih (tidy_updateIndex hd1 t) eff

theorem tidy_remove {d : Dex} (hd : d.Tidy) (tgt : RemoveTarget) (c : Bool) :
    ((d.remove tgt c).dexOf).Tidy := by
  unfold Dex.remove
  cases tgt with
  | pred f =>
    dsimp only
    rcases hres : Dex.removePredTagLoop f d 0 [] d.allTags with ⟨d1, cnt1, rest1⟩
    obtain ⟨emptied, err⟩ := rest1
    have hpl := tidy_removePredTagLoop f d.allTags hd 0 []
    rw [hres] at hpl
    cases err with
    | some e => exact hpl
    | none =>
      dsimp only
      by_cases hc : c = true
      · rw [if_pos hc]
        have hdt := tidy_dropTags emptied hpl []
        rcases hdres : Dex.dropTags d1 [] emptied with ⟨d2, v⟩ | ⟨d2, e⟩ <;>
          rw [hdres] at hdt <;> exact hdt
      · rw [if_neg hc]
        exact hpl
  | direct tgt =>
    dsimp only
    cases hho : hashOf tgt with
    | none => exact hd
    | some h =>
      dsimp only
      cases hm : recGet d.tagsByEntryHash h with
      | none => exact hd
      | some ts =>
        dsimp only
        rcases hres : Dex.removeDirectTagLoop h d [] ts with ⟨d1, rest1⟩
        obtain ⟨emptied, err⟩ := rest1
        have hdl := tidy_removeDirectTagLoop h ts hd []
        rw [hres] at hdl
        cases err with
        | some e => exact hdl
        | none =>
          dsimp only
          have hd2 := tidy_removeItemAt hdl h
          by_cases hc : c = true
          · rw [if_pos hc]
            have hdt := tidy_dropTags emptied hd2 []
            rcases hdres : Dex.dropTags (d1.removeItemAt h) [] emptied with
                ⟨d2, v⟩ | ⟨d2, e⟩ <;>
              rw [hdres] at hdt <;> exact hdt
          · rw [if_neg hc]
            exact hd2

theorem tidy_drop {d : Dex} (hd : d.Tidy) (ts : List Tag) :
    ((d.drop ts).dexOf).Tidy :=
  tidy_dropTags ts hd []

/-- **C7 (amended)**: the zero-tag freedom of invariant 5 holds as claimed
for every remove and drop call and for every add that either supplies at
least one tag or registers a bare atomic tag, starting from the empty
constructor — but *not* for adds of a non-atomic entry with an empty tag
list, which retain the entry with an empty tag-set (see the counterexample
theorem): `Tidy` (duplicate-free tag/hash registries, a `hashesByTag` slot
for every tag, and no retained entry with an empty tag-set) is an invariant
of all those operations, including the states they leave behind when they
throw. -/
theorem c7_amended_no_zero_tag_preservation (d : Dex) (hd : d.Tidy) :
    Dex.empty.Tidy ∧
    (∀ (e : EntryVal) (ts : List Tag), ts ≠ [] ∨ e.isAtomic = true →
      ((d.add e ts).dexOf).Tidy) ∧
    (∀ (tgt : RemoveTarget) (c : Bool), ((d.remove tgt c).dexOf).Tidy) ∧
    (∀ ts : List Tag, ((d.drop ts).dexOf).Tidy) :=
  ⟨by decide, fun e ts hok => tidy_add hd e ts hok,
   fun tgt c => tidy_remove hd tgt c, fun ts => tidy_drop hd ts⟩

/-- **C7 (amended) witness**: the preservation theorem applied to the
three-entry fixture, whose tidiness is decided by evaluation. -/
theorem c7_amended_no_zero_tag_preservation_witness :
    dexXYZ.Tidy ∧
    (Dex.empty.Tidy ∧
     (∀ (e : EntryVal) (ts : List Tag), ts ≠ [] ∨ e.isAtomic = true →
       ((dexXYZ.add e ts).dexOf).Tidy) ∧
     (∀ (tgt : RemoveTarget) (c : Bool), ((dexXYZ.remove tgt c).dexOf).Tidy) ∧
     (∀ ts : List Tag, ((dexXYZ.drop ts).dexOf).Tidy)) :=
  ⟨by decide, c7_amended_no_zero_tag_preservation dexXYZ (by decide)⟩

/-! ## The iteration layer (`forEach`) -/

theorem runGroup_of_no_break {f : Option EntryVal → Tag → Bool}
    (hf : ∀ e t, f e t = false) (l : List (Option EntryVal × Tag)) :
    runGroup f l = l := by
  induction l with
  | nil => rfl
  | cons p rest ih => simp [runGroup, hf, ih]

theorem runGroup_sublist (f : Option EntryVal → Tag → Bool)
    (l : List (Option EntryVal × Tag)) : (runGroup f l).Sublist l := by
  induction l with
  | nil => simp [runGroup]
  | cons p rest ih =>
    rw [runGroup]
    split
    · exact List.cons_sublist_cons.mpr (List.nil_sublist rest)
    · exact List.cons_sublist_cons.mpr ih

theorem runGroup_eq_takeWhile (f : Option EntryVal → Tag → Bool)
    (l : List (Option EntryVal × Tag)) :
    runGroup f l = l.takeWhile (fun p => !f p.1 p.2) ++
      (l.dropWhile (fun p => !f p.1 p.2)).take 1 := by
  induction l with
  | nil => rfl
  | cons p rest ih =>
    by_cases hf : f p.1 p.2 = true
    · simp [runGroup, hf, List.takeWhile_cons, List.dropWhile_cons]
    · simp only [runGroup, hf, if_false, List.takeWhile_cons,
        List.dropWhile_cons, Bool.not_eq_true', ih]
      simp [hf]

theorem wf_tagsOf_nodup {d : Dex} (w : WF d) (h : HashKey) :
    ((recGet d.tagsByEntryHash h).getD []).Nodup := by
  cases hm : recGet d.tagsByEntryHash h with
  | none => simp
  | some ts => simpa using w.tbhValsND _ (mem_of_recGet_eq_some hm)

theorem wf_hashesOf_nodup {d : Dex} (w : WF d) (t : Tag) :
    ((recGet d.hashesByTag t).getD []).Nodup := by
  cases hm : recGet d.hashesByTag t with
  | none => simp
  | some hs => simpa using w.hbtValsND _ (mem_of_recGet_eq_some hm)

/-- Invariant 2 as a two-way bridge between the two directions of the
index: an `(entry-hash, tag)` association is recorded under the hash
exactly when it is recorded under the tag. -/
theorem wf_pair_iff {d : Dex} (w : WF d) (h : HashKey) (t : Tag) :
    (h ∈ d.allHashes ∧ t ∈ (recGet d.tagsByEntryHash h).getD []) ↔
    (t ∈ d.allTags ∧ h ∈ (recGet d.hashesByTag t).getD []) := by
  constructor
  · rintro ⟨hh, ht⟩
    cases hm : recGet d.tagsByEntryHash h with
    | none => rw [hm] at ht; simp at ht
    | some ts =>
      have hts : t ∈ ts := by rw [hm] at ht; simpa using ht
      have hpair := mem_of_recGet_eq_some hm
      have h2 := w.inv2b _ hpair t hts
      refine ⟨?_, h2⟩
      cases hb : recGet d.hashesByTag t with
      | none => rw [hb] at h2; simp at h2
      | some hs => exact w.inv1b _ (mem_of_recGet_eq_some hb)
  · rintro ⟨htag, hh⟩
    cases hb : recGet d.hashesByTag t with
    | none => rw [hb] at hh; simp at hh
    | some hs =>
      have hhs : h ∈ hs := by rw [hb] at hh; simpa using hh
      have hpair := mem_of_recGet_eq_some hb
      have h2 := w.inv2a _ hpair h hhs
      refine ⟨?_, h2⟩
      cases hm : recGet d.tagsByEntryHash h with
      | none => rw [hm] at h2; simp at h2
      | some ts => exact w.inv3b _ (mem_of_recGet_eq_some hm)

theorem wf_mem_hashesOf {d : Dex} (w : WF d) {t : Tag} {h : HashKey}
    (hm : h ∈ (recGet d.hashesByTag t).getD []) : h ∈ d.allHashes := by
  cases hb : recGet d.hashesByTag t with
  | none => rw [hb] at hm; simp at hm
  | some hs =>
    have hpair := mem_of_recGet_eq_some hb
    have h2 := w.inv2a _ hpair h (by rw [hb] at hm; simpa using hm)
    cases hm2 : recGet d.tagsByEntryHash h with
    | none => rw [hm2] at h2; simp at h2
    | some ts => exact w.inv3b _ (mem_of_recGet_eq_some hm2)

/-- Distinct retained hashes hold distinct entry values: `entriesByHash`
maps each hash to an entry whose own hash is that key. -/
theorem wf_entry_inj {d : Dex} (w : WF d) {h1 h2 : HashKey}
    (hh1 : h1 ∈ d.allHashes) (hh2 : h2 ∈ d.allHashes)
    (he : recGet d.entriesByHash h1 = recGet d.entriesByHash h2) :
    h1 = h2 := by
  obtain ⟨e1, he1⟩ := Option.isSome_iff_exists.mp (w.inv3c h1 hh1)
  obtain ⟨e2, he2⟩ := Option.isSome_iff_exists.mp (w.inv3c h2 hh2)
  rw [he1, he2] at he
  obtain rfl : e1 = e2 := by injection he
  have k1 := w.hashOK _ (mem_of_recGet_eq_some he1)
  have k2 := w.hashOK _ (mem_of_recGet_eq_some he2)
  rw [k1] at k2
  injection k2

theorem entryGroup_nodup {d : Dex} (w : WF d) (h : HashKey) :
    (d.entryGroup h).Nodup := by
  unfold Dex.entryGroup
  exact (wf_tagsOf_nodup w h).map
    (fun t1 t2 he => by simpa using congrArg Prod.snd he)

theorem tagGroup_nodup {d : Dex} (w : WF d) (t : Tag) :
    (d.tagGroup t).Nodup := by
  unfold Dex.tagGroup
  apply (wf_hashesOf_nodup w t).map_on
  intro h1 hm1 h2 hm2 he
  exact wf_entry_inj w (wf_mem_hashesOf w hm1) (wf_mem_hashesOf w hm2)
    (congrArg Prod.fst he)

theorem forEachVisits_nodup_entry {d : Dex} (w : WF d)
    (f : Option EntryVal → Tag → Bool) (hf : ∀ e t, f e t = false) :
    (d.forEachVisits f .entry).Nodup := by
  unfold Dex.forEachVisits
  rw [List.nodup_flatten]
  constructor
  · intro l hl
    rcases List.mem_map.mp hl with ⟨h, hh, rfl⟩
    rw [runGroup_of_no_break hf]
    exact entryGroup_nodup w h
  · rw [List.pairwise_map]
    refine (w.hashesND).imp_of_mem ?_
    intro h1 h2 hm1 hm2 hne
    rw [runGroup_of_no_break hf, runGroup_of_no_break hf]
    intro x hx1 hx2
    unfold Dex.entryGroup at hx1 hx2
    rcases List.mem_map.mp hx1 with ⟨t1, ht1, rfl⟩
    rcases List.mem_map.mp hx2 with ⟨t2, ht2, hxe⟩
    exact hne (wf_entry_inj w hm1 hm2 (congrArg Prod.fst hxe).symm)

theorem forEachVisits_nodup_tag {d : Dex} (w : WF d)
    (f : Option EntryVal → Tag → Bool) (hf : ∀ e t, f e t = false) :
    (d.forEachVisits f .tag).Nodup := by
  unfold Dex.forEachVisits
  rw [List.nodup_flatten]
  constructor
  · intro l hl
    rcases List.mem_map.mp hl with ⟨t, ht, rfl⟩
    rw [runGroup_of_no_break hf]
    exact tagGroup_nodup w t
  · rw [List.pairwise_map]
    refine (w.tagsND).imp_of_mem ?_
    intro t1 t2 hm1 hm2 hne
    rw [runGroup_of_no_break hf, runGroup_of_no_break hf]
    intro x hx1 hx2
    unfold Dex.tagGroup at hx1 hx2
    rcases List.mem_map.mp hx1 with ⟨h1, hh1, rfl⟩
    rcases List.mem_map.mp hx2 with ⟨h2, hh2, hxe⟩
    exact hne ((congrArg Prod.snd hxe).symm)

theorem mem_forEachVisits_entry {d : Dex} (f : Option EntryVal → Tag → Bool)
    (hf : ∀ e t, f e t = false) (x : Option EntryVal × Tag) :
    x ∈ d.forEachVisits f .entry ↔
      ∃ h ∈ d.allHashes, ∃ t ∈ (recGet d.tagsByEntryHash h).getD [],
        x = (recGet d.entriesByHash h, t) := by
  unfold Dex.forEachVisits
  rw [List.mem_flatten]
  constructor
  · rintro ⟨l, hl, hx⟩
    rcases List.mem_map.mp hl with ⟨h, hh, rfl⟩
    rw [runGroup_of_no_break hf] at hx
    unfold Dex.entryGroup at hx
    rcases List.mem_map.mp hx with ⟨t, ht, rfl⟩
    exact ⟨h, hh, t, ht, rfl⟩
  · rintro ⟨h, hh, t, ht, rfl⟩
    refine ⟨runGroup f (d.entryGroup h), List.mem_map_of_mem _ hh, ?_⟩
    rw [runGroup_of_no_break hf]
    unfold Dex.entryGroup
    exact List.mem_map_of_mem _ ht

theorem mem_forEachVisits_tag {d : Dex} (f : Option EntryVal → Tag → Bool)
    (hf : ∀ e t, f e t = false) (x : Option EntryVal × Tag) :
    x ∈ d.forEachVisits f .tag ↔
      ∃ t ∈ d.allTags, ∃ h ∈ (recGet d.hashesByTag t).getD [],
        x = (recGet d.entriesByHash h, t) := by
  unfold Dex.forEachVisits
  rw [List.mem_flatten]
  constructor
  · rintro ⟨l, hl, hx⟩
    rcases List.mem_map.mp hl with ⟨t, ht, rfl⟩
    rw [runGroup_of_no_break hf] at hx
    unfold Dex.tagGroup at hx
    rcases List.mem_map.mp hx with ⟨h, hh, rfl⟩
    exact ⟨t, ht, h, hh, rfl⟩
  · rintro ⟨t, ht, h, hh, rfl⟩
    refine ⟨runGroup f (d.tagGroup t), List.mem_map_of_mem _ ht, ?_⟩
    rw [runGroup_of_no_break hf]
    unfold Dex.tagGroup
    exact List.mem_map_of_mem _ hh

theorem forEachVisits_perm {d : Dex} (w : WF d)
    (f : Option EntryVal → Tag → Bool) (hf : ∀ e t, f e t = false) :
    (d.forEachVisits f .entry).Perm (d.forEachVisits f .tag) := by
  rw [List.perm_ext_iff_of_nodup (forEachVisits_nodup_entry w f hf)
    (forEachVisits_nodup_tag w f hf)]
  intro x
  rw [mem_forEachVisits_entry f hf, mem_forEachVisits_tag f hf]
  constructor
  · rintro ⟨h, hh, t, ht, rfl⟩
    have hb := (wf_pair_iff w h t).mp ⟨hh, ht⟩
    exact ⟨t, hb.1, h, hb.2, rfl⟩
  · rintro ⟨t, ht, h, hh, rfl⟩
    have hb := (wf_pair_iff w h t).mpr ⟨ht, hh⟩
    exact ⟨h, hb.1, t, hb.2, rfl⟩

theorem mem_visits_entry_iff_group {d : Dex} (w : WF d)
    (f : Option EntryVal → Tag → Bool) {h : HashKey} (hh : h ∈ d.allHashes)
    {p : Option EntryVal × Tag} (hp : p ∈ d.entryGroup h) :
    p ∈ d.forEachVisits f .entry ↔ p ∈ runGroup f (d.entryGroup h) := by
  constructor
  · intro hv
    unfold Dex.forEachVisits at hv
    rcases List.mem_flatten.mp hv with ⟨l, hl, hpl⟩
    rcases List.mem_map.mp hl with ⟨h', hh', rfl⟩
    have hpg' : p ∈ d.entryGroup h' := (runGroup_sublist f _).subset hpl
    unfold Dex.entryGroup at hp hpg'
    rcases List.mem_map.mp hp with ⟨t, ht, rfl⟩
    rcases List.mem_map.mp hpg' with ⟨t', ht', he⟩
    have hhe : h' = h := wf_entry_inj w hh' hh (congrArg Prod.fst he)
    subst hhe
    exact hpl
  · intro hv
    unfold Dex.forEachVisits
    exact List.mem_flatten.mpr
      ⟨runGroup f (d.entryGroup h), List.mem_map_of_mem _ hh, hv⟩

theorem mem_visits_tag_iff_group {d : Dex}
    (f : Option EntryVal → Tag → Bool) {t : Tag} (ht : t ∈ d.allTags)
    {p : Option EntryVal × Tag} (hp : p ∈ d.tagGroup t) :
    p ∈ d.forEachVisits f .tag ↔ p ∈ runGroup f (d.tagGroup t) := by
  constructor
  · intro hv
    unfold Dex.forEachVisits at hv
    rcases List.mem_flatten.mp hv with ⟨l, hl, hpl⟩
    rcases List.mem_map.mp hl with ⟨t', ht', rfl⟩
    have hpg' : p ∈ d.tagGroup t' := (runGroup_sublist f _).subset hpl
    unfold Dex.tagGroup at hp hpg'
    rcases List.mem_map.mp hp with ⟨h, hh, rfl⟩
    rcases List.mem_map.mp hpg' with ⟨h', hh', he⟩
    have hte : t' = t := congrArg Prod.snd he
    subst hte
    exact hpl
  · intro hv
    unfold Dex.forEachVisits
    exact List.mem_flatten.mpr
      ⟨runGroup f (d.tagGroup t), List.mem_map_of_mem _ ht, hv⟩

/-- **C8**: `forEach` visits each `(entry, tag)` association exactly once —
on a well-formed index, the visit list of a never-breaking visitor is
duplicate-free in both outer-loop modes and the two modes visit the same
pairs up to order (a permutation); and the `BREAK` sentinel is scoped to
one inner group: a pair of an outer group is visited exactly when it
survives its *own* group's truncation (other groups' breaks are
irrelevant, so the outer loop continues), where the truncation keeps the
no-break prefix plus the breaking pair itself. -/
theorem c8_foreach_pairs_once_and_break_scoped (d : Dex) (w : WF d) :
    (∀ f : Option EntryVal → Tag → Bool, (∀ e t, f e t = false) →
      (d.forEachVisits f .entry).Nodup ∧
      (d.forEachVisits f .tag).Nodup ∧
      (d.forEachVisits f .entry).Perm (d.forEachVisits f .tag)) ∧
    (∀ (f : Option EntryVal → Tag → Bool) (h : HashKey), h ∈ d.allHashes →
      ∀ p ∈ d.entryGroup h,
        (p ∈ d.forEachVisits f .entry ↔ p ∈ runGroup f (d.entryGroup h))) ∧
    (∀ (f : Option EntryVal → Tag → Bool) (t : Tag), t ∈ d.allTags →
      ∀ p ∈ d.tagGroup t,
        (p ∈ d.forEachVisits f .tag ↔ p ∈ runGroup f (d.tagGroup t))) ∧
    (∀ (f : Option EntryVal → Tag → Bool) (g : List (Option EntryVal × Tag)),
      runGroup f g = g.takeWhile (fun p => !f p.1 p.2) ++
        (g.dropWhile (fun p => !f p.1 p.2)).take 1) :=
  ⟨fun f hf => ⟨forEachVisits_nodup_entry w f hf,
     forEachVisits_nodup_tag w f hf, forEachVisits_perm w f hf⟩,
   fun f h hh p hp => mem_visits_entry_iff_group w f hh hp,
   fun f t ht p hp => mem_visits_tag_iff_group f ht hp,
   fun f g => runGroup_eq_takeWhile f g⟩

/-- **C8 witness**: the iteration theorem applied to the three-entry
fixture, whose well-formedness is decided by evaluation. -/
theorem c8_foreach_pairs_once_and_break_scoped_witness :
    WF dexXYZ ∧
    ((∀ f : Option EntryVal → Tag → Bool, (∀ e t, f e t = false) →
      (dexXYZ.forEachVisits f .entry).Nodup ∧
      (dexXYZ.forEachVisits f .tag).Nodup ∧
      (dexXYZ.forEachVisits f .entry).Perm (dexXYZ.forEachVisits f .tag)) ∧
    (∀ (f : Option EntryVal → Tag → Bool) (h : HashKey), h ∈ dexXYZ.allHashes →
      ∀ p ∈ dexXYZ.entryGroup h,
        (p ∈ dexXYZ.forEachVisits f .entry ↔
          p ∈ runGroup f (dexXYZ.entryGroup h))) ∧
    (∀ (f : Option EntryVal → Tag → Bool) (t : Tag), t ∈ dexXYZ.allTags →
      ∀ p ∈ dexXYZ.tagGroup t,
        (p ∈ dexXYZ.forEachVisits f .tag ↔
          p ∈ runGroup f (dexXYZ.tagGroup t))) ∧
    (∀ (f : Option EntryVal → Tag → Bool) (g : List (Option EntryVal × Tag)),
      runGroup f g = g.takeWhile (fun p => !f p.1 p.2) ++
        (g.dropWhile (fun p => !f p.1 p.2)).take 1)) :=
  ⟨by decide, c8_foreach_pairs_once_and_break_scoped dexXYZ (by decide)⟩

/-! ## C5: drop semantics -/

theorem dropHashLoop_spec (t : Tag) (hs : List HashKey) :
    ∀ {d : Dex} (eff : List (Option EntryVal)),
    hs.Nodup →
    (∀ h ∈ hs, ∃ ts0, recGet d.tagsByEntryHash h = some ts0 ∧ t ∈ ts0) →
    d.allHashes.Nodup →
    (∀ h ∈ hs, h ∈ d.allHashes) →
    ∃ d' eff', Dex.dropHashLoop t d eff hs = (d', eff', none) ∧
      d'.allTags = d.allTags ∧
      d'.hashesByTag = d.hashesByTag ∧
      d'.views = d.views ∧
      (∀ k, recGet d'.tagsByEntryHash k =
        if k ∈ hs then
          (if ((recGet d.tagsByEntryHash k).getD []).erase t = [] then none
           else some (((recGet d.tagsByEntryHash k).getD []).erase t))
        else recGet d.tagsByEntryHash k) ∧
      (∀ k, k ∈ d'.allHashes ↔
        k ∈ d.allHashes ∧
          ¬(k ∈ hs ∧ ((recGet d.tagsByEntryHash k).getD []).erase t = [])) ∧
      (∀ k, recGet d'.entriesByHash k =
        if k ∈ hs ∧ ((recGet d.tagsByEntryHash k).getD []).erase t = []
        then none else recGet d.entriesByHash k) ∧
      (∀ x, x ∈ eff' ↔ x ∈ eff ∨ ∃ k ∈ hs, x = recGet d.entriesByHash k) ∧
      d'.allHashes.Nodup ∧
      ((d.tagsByEntryHash.map Prod.fst).Nodup →
        (d'.tagsByEntryHash.map Prod.fst).Nodup) ∧
      ((d.entriesByHash.map Prod.fst).Nodup →
        (d'.entriesByHash.map Prod.fst).Nodup) ∧
      ((∀ p ∈ d.tagsByEntryHash, p.2.Nodup) →
        ∀ p ∈ d'.tagsByEntryHash, p.2.Nodup) ∧
      (eff.Nodup → eff'.Nodup) := by
  induction hs with
  | nil =>
    intro d eff _ _ h3 _
    refine ⟨d, eff, rfl, rfl, rfl, rfl, ?_, ?_, ?_, ?_, h3, id, id, id, id⟩
    · intro k; simp
    · intro k; simp
    · intro k; simp
    · intro x; simp
  | cons h rest ih =>
    intro d eff hnd h2 h3 h4
    obtain ⟨ts0, hm, hts0⟩ := h2 h (List.mem_cons_self h rest)
    have hhd : h ∈ d.allHashes := h4 h (List.mem_cons_self h rest)
    have hnr : h ∉ rest := (List.nodup_cons.mp hnd).1
    have hndr : rest.Nodup := (List.nodup_cons.mp hnd).2
    unfold Dex.dropHashLoop
    dsimp only
    rw [hm]
    dsimp only
    by_cases hemp : ((ts0.erase t).isEmpty : Prop)
    · rw [if_pos hemp]
      have hempe : ts0.erase t = [] := by simpa [List.isEmpty_iff] using hemp
      -- the state after this iteration
      set d2 : Dex :=
        ({d with tagsByEntryHash :=
            recSet d.tagsByEntryHash h (ts0.erase t)} : Dex).removeItemAt h
        with hd2
      -- step characterizations
      have s_tbh : ∀ k, recGet d2.tagsByEntryHash k =
          if k = h then none else recGet d.tagsByEntryHash k := by
        intro k
        by_cases hk : k = h
        · subst hk
          show recGet (recDelete (recSet d.tagsByEntryHash k (ts0.erase t)) k) k = _
          rw [recGet_recDelete_self, if_pos rfl]
        · show recGet (recDelete (recSet d.tagsByEntryHash h (ts0.erase t)) h) k = _
          rw [recGet_recDelete_ne _ hk, recGet_recSet_ne _ _ hk, if_neg hk]
      have s_hashes : ∀ k, k ∈ d2.allHashes ↔ k ≠ h ∧ k ∈ d.allHashes := by
        intro k
        show k ∈ d.allHashes.erase h ↔ _
        exact h3.mem_erase_iff
      have s_ebh : ∀ k, recGet d2.entriesByHash k =
          if k = h then none else recGet d.entriesByHash k := by
        intro k
        by_cases hk : k = h
        · subst hk
          show recGet (recDelete d.entriesByHash k) k = _
          rw [recGet_recDelete_self, if_pos rfl]
        · show recGet (recDelete d.entriesByHash h) k = _
          rw [recGet_recDelete_ne _ hk, if_neg hk]
      -- IH hypotheses for d2
      have ih2 : ∀ k ∈ rest, ∃ ts1,
          recGet d2.tagsByEntryHash k = some ts1 ∧ t ∈ ts1 := by
        intro k hk
        have hkh : ¬ k = h := fun he => hnr (he ▸ hk)
        rw [s_tbh k, if_neg hkh]
        exact h2 k (List.mem_cons_of_mem _ hk)
      have ih3 : d2.allHashes.Nodup := h3.erase h
      have ih4 : ∀ k ∈ rest, k ∈ d2.allHashes := by
        intro k hk
        have hkh : k ≠ h := fun he => hnr (he ▸ hk)
        exact (s_hashes k).mpr ⟨hkh, h4 k (List.mem_cons_of_mem _ hk)⟩
      obtain ⟨d', eff', heq, c1, c2, c3, c4, c5, c6, c7, c8, c9, c10, c11, c12⟩ :=
        ih (setAdd eff (recGet d.entriesByHash h)) hndr ih2 ih3 ih4
      refine ⟨d', eff', heq, ?_, ?_, ?_, ?_, ?_, ?_, ?_, c8, ?_, ?_, ?_, ?_⟩
      · exact c1
      · exact c2
      · exact c3
      · -- tagsByEntryHash characterization
        intro k
        rw [c4 k]
        by_cases hk : k = h
        · subst hk
          rw [if_neg hnr, s_tbh k, if_pos rfl,
            if_pos (List.mem_cons_self k rest), hm]
          simp [hempe]
        · by_cases hkr : k ∈ rest
          · rw [if_pos hkr, if_pos (List.mem_cons_of_mem _ hkr)]
            rw [s_tbh k, if_neg hk]
          · rw [if_neg hkr, s_tbh k, if_neg hk,
              if_neg (by simp [hk, hkr])]
      · -- allHashes characterization
        intro k
        rw [c5 k, s_hashes k]
        by_cases hk : k = h
        · subst hk
          constructor
          · rintro ⟨⟨hne, _⟩, _⟩
            exact absurd rfl hne
          · rintro ⟨hka, hno⟩
            exfalso
            apply hno
            refine ⟨List.mem_cons_self k rest, ?_⟩
            rw [hm]
            simpa using hempe
        · by_cases hkr : k ∈ rest
          · rw [s_tbh k, if_neg hk]
            constructor
            · rintro ⟨⟨_, hka⟩, hno⟩
              refine ⟨hka, ?_⟩
              rintro ⟨_, hce⟩
              exact hno ⟨hkr, hce⟩
            · rintro ⟨hka, hno⟩
              exact ⟨⟨hk, hka⟩, fun ⟨_, hce⟩ =>
                hno ⟨List.mem_cons_of_mem _ hkr, hce⟩⟩
          · rw [s_tbh k, if_neg hk]
            constructor
            · rintro ⟨⟨_, hka⟩, _⟩
              refine ⟨hka, ?_⟩
              rintro ⟨hmem, _⟩
              rcases List.mem_cons.mp hmem with he | he
              · exact hk he
              · exact hkr he
            · rintro ⟨hka, _⟩
              exact ⟨⟨hk, hka⟩, fun ⟨hce, _⟩ => hkr hce⟩
      · -- entriesByHash characterization
        intro k
        rw [c6 k]
        by_cases hk : k = h
        · subst hk
          rw [s_ebh k, if_pos rfl, if_neg (by rintro ⟨hkr, _⟩; exact hnr hkr),
            if_pos ⟨List.mem_cons_self k rest, by rw [hm]; simpa using hempe⟩]
        · by_cases hkr : k ∈ rest
          · rw [s_tbh k, if_neg hk, s_ebh k, if_neg hk]
            by_cases hce : ((recGet d.tagsByEntryHash k).getD []).erase t = []
            · rw [if_pos ⟨hkr, hce⟩, if_pos ⟨List.mem_cons_of_mem _ hkr, hce⟩]
            · rw [if_neg (by rintro ⟨_, hc⟩; exact hce hc),
                if_neg (by rintro ⟨_, hc⟩; exact hce hc)]
          · have hnc : ¬(k ∈ h :: rest ∧
                ((recGet d.tagsByEntryHash k).getD []).erase t = []) := by
              rintro ⟨hc, _⟩
              rcases List.mem_cons.mp hc with he | he
              · exact hk he
              · exact hkr he
            rw [s_tbh k, if_neg hk, s_ebh k, if_neg hk,
              if_neg (by rintro ⟨hc, _⟩; exact hkr hc), if_neg hnc]
      · -- eff characterization
        intro x
        rw [c7 x]
        rw [mem_setAdd]
        constructor
        · rintro ((hx | hx) | ⟨k, hk, hx⟩)
          · exact Or.inl hx
          · exact Or.inr ⟨h, List.mem_cons_self h rest, hx⟩
          · have hkh : ¬ k = h := fun he => hnr (he ▸ hk)
            rw [s_ebh k, if_neg hkh] at hx
            exact Or.inr ⟨k, List.mem_cons_of_mem _ hk, hx⟩
        · rintro (hx | ⟨k, hk, hx⟩)
          · exact Or.inl (Or.inl hx)
          · rcases List.mem_cons.mp hk with he | he
            · subst he
              exact Or.inl (Or.inr hx)
            · have hkh : ¬ k = h := fun hee => hnr (hee ▸ he)
              refine Or.inr ⟨k, he, ?_⟩
              rw [s_ebh k, if_neg hkh]
              exact hx
      · -- tagsByEntryHash keys nodup
        intro hnd0
        apply c9
        show ((recDelete (recSet d.tagsByEntryHash h (ts0.erase t)) h).map
          Prod.fst).Nodup
        exact recDelete_keys_nodup (recSet_keys_nodup hnd0 h (ts0.erase t)) h
      · -- entriesByHash keys nodup
        intro hnd0
        apply c10
        exact recDelete_keys_nodup hnd0 h
      · -- tagsByEntryHash values nodup
        intro hv0
        apply c11
        intro p hp
        have hp2 := mem_recDelete.mp hp
        rcases mem_recSet hp2.1 with he | ⟨hpm, _⟩
        · subst he
          have : ts0.Nodup := by
            have := hv0 _ (mem_of_recGet_eq_some hm)
            simpa using this
          exact this.erase t
        · exact hv0 p hpm
      · -- eff nodup
        intro hne
        exact c12 (setAdd_nodup hne _)
    · rw [if_neg hemp]
      have hempe : ts0.erase t ≠ [] := by
        simpa [List.isEmpty_iff] using hemp
      set d2 : Dex :=
        ({d with tagsByEntryHash :=
            recSet d.tagsByEntryHash h (ts0.erase t)} : Dex)
        with hd2
      have s_tbh : ∀ k, recGet d2.tagsByEntryHash k =
          if k = h then some (ts0.erase t) else recGet d.tagsByEntryHash k := by
        intro k
        by_cases hk : k = h
        · subst hk
          show recGet (recSet d.tagsByEntryHash k (ts0.erase t)) k = _
          rw [recGet_recSet_self, if_pos rfl]
        · show recGet (recSet d.tagsByEntryHash h (ts0.erase t)) k = _
          rw [recGet_recSet_ne _ _ hk, if_neg hk]
      have s_hashes : d2.allHashes = d.allHashes := rfl
      have s_ebh : d2.entriesByHash = d.entriesByHash := rfl
      have ih2 : ∀ k ∈ rest, ∃ ts1,
          recGet d2.tagsByEntryHash k = some ts1 ∧ t ∈ ts1 := by
        intro k hk
        have hkh : ¬ k = h := fun he => hnr (he ▸ hk)
        rw [s_tbh k, if_neg hkh]
        exact h2 k (List.mem_cons_of_mem _ hk)
      have ih4 : ∀ k ∈ rest, k ∈ d2.allHashes := by
        intro k hk
        exact h4 k (List.mem_cons_of_mem _ hk)
      obtain ⟨d', eff', heq, c1, c2, c3, c4, c5, c6, c7, c8, c9, c10, c11, c12⟩ :=
        ih (setAdd eff (recGet d.entriesByHash h)) hndr ih2 h3 ih4
      refine ⟨d', eff', heq, c1, c2, c3, ?_, ?_, ?_, ?_, c8, ?_, ?_, ?_, ?_⟩
      · intro k
        rw [c4 k]
        by_cases hk : k = h
        · subst hk
          rw [if_neg hnr, s_tbh k, if_pos rfl,
            if_pos (List.mem_cons_self k rest), hm]
          simp [hempe]
        · by_cases hkr : k ∈ rest
          · rw [if_pos hkr, if_pos (List.mem_cons_of_mem _ hkr)]
            rw [s_tbh k, if_neg hk]
          · rw [if_neg hkr, s_tbh k, if_neg hk,
              if_neg (by simp [hk, hkr])]
      · intro k
        rw [c5 k]
        by_cases hk : k = h
        · subst hk
          rw [s_tbh k, if_pos rfl]
          constructor
          · rintro ⟨hka, _⟩
            refine ⟨hka, ?_⟩
            rintro ⟨_, hce⟩
            rw [hm] at hce
            exact hempe (by simpa using hce)
          · rintro ⟨hka, _⟩
            exact ⟨hka, fun ⟨hkr, _⟩ => hnr hkr⟩
        · by_cases hkr : k ∈ rest
          · rw [s_tbh k, if_neg hk]
            constructor
            · rintro ⟨hka, hno⟩
              exact ⟨hka, fun ⟨_, hce⟩ => hno ⟨hkr, hce⟩⟩
            · rintro ⟨hka, hno⟩
              exact ⟨hka, fun ⟨_, hce⟩ =>
                hno ⟨List.mem_cons_of_mem _ hkr, hce⟩⟩
          · rw [s_tbh k, if_neg hk]
            constructor
            · rintro ⟨hka, _⟩
              refine ⟨hka, ?_⟩
              rintro ⟨hmem, _⟩
              rcases List.mem_cons.mp hmem with he | he
              · exact hk he
              · exact hkr he
            · rintro ⟨hka, _⟩
              exact ⟨hka, fun ⟨hce, _⟩ => hkr hce⟩
      · intro k
        rw [c6 k]
        show (if k ∈ rest ∧ ((recGet d2.tagsByEntryHash k).getD []).erase t = []
          then none else recGet d.entriesByHash k) = _
        by_cases hk : k = h
        · subst hk
          rw [if_neg (by rintro ⟨hkr, _⟩; exact hnr hkr),
            if_neg (by
              rintro ⟨_, hce⟩
              rw [hm] at hce
              exact hempe (by simpa using hce))]
        · rw [s_tbh k, if_neg hk]
          by_cases hkr : k ∈ rest
          · by_cases hce : ((recGet d.tagsByEntryHash k).getD []).erase t = []
            · rw [if_pos ⟨hkr, hce⟩, if_pos ⟨List.mem_cons_of_mem _ hkr, hce⟩]
            · rw [if_neg (by rintro ⟨_, hc⟩; exact hce hc),
                if_neg (by rintro ⟨_, hc⟩; exact hce hc)]
          · have hnc : ¬(k ∈ h :: rest ∧
                ((recGet d.tagsByEntryHash k).getD []).erase t = []) := by
              rintro ⟨hc, _⟩
              rcases List.mem_cons.mp hc with he | he
              · exact hk he
              · exact hkr he
            rw [if_neg (by rintro ⟨hc, _⟩; exact hkr hc), if_neg hnc]
      · intro x
        rw [c7 x, mem_setAdd]
        constructor
        · rintro ((hx | hx) | ⟨k, hk, hx⟩)
          · exact Or.inl hx
          · exact Or.inr ⟨h, List.mem_cons_self h rest, hx⟩
          · exact Or.inr ⟨k, List.mem_cons_of_mem _ hk, hx⟩
        · rintro (hx | ⟨k, hk, hx⟩)
          · exact Or.inl (Or.inl hx)
          · rcases List.mem_cons.mp hk with he | he
            · subst he
              exact Or.inl (Or.inr hx)
            · exact Or.inr ⟨k, he, hx⟩
      · intro hnd0
        apply c9
        exact recSet_keys_nodup hnd0 h (ts0.erase t)
      · intro hnd0
        exact c10 hnd0
      · intro hv0
        apply c11
        intro p hp
        rcases mem_recSet hp with he | ⟨hpm, _⟩
        · subst he
          have : ts0.Nodup := by
            have := hv0 _ (mem_of_recGet_eq_some hm)
            simpa using this
          exact this.erase t
        · exact hv0 p hpm
      · intro hne
        exact c12 (setAdd_nodup hne _)

theorem wf_congr {d d' : Dex} (w : WF d)
    (h1 : d'.allTags = d.allTags) (h2 : d'.allHashes = d.allHashes)
    (h3 : d'.hashesByTag = d.hashesByTag)
    (h4 : d'.tagsByEntryHash = d.tagsByEntryHash)
    (h5 : d'.entriesByHash = d.entriesByHash) : WF d' := by
  constructor
  · rw [h1]; exact w.tagsND
  · rw [h2]; exact w.hashesND
  · rw [h3]; exact w.hbtKeysND
  · rw [h4]; exact w.tbhKeysND
  · rw [h5]; exact w.ebhKeysND
  · rw [h3]; exact w.hbtValsND
  · rw [h4]; exact w.tbhValsND
  · rw [h1, h3]; exact w.inv1a
  · rw [h3, h1]; exact w.inv1b
  · rw [h3, h4]; exact w.inv2a
  · rw [h4, h3]; exact w.inv2b
  · rw [h2, h4]; exact w.inv3a
  · rw [h4, h2]; exact w.inv3b
  · rw [h2, h5]; exact w.inv3c
  · rw [h5, h2]; exact w.inv3d
  · rw [h5]; exact w.hashOK

theorem wf_updateIndex {d : Dex} (w : WF d) (t : Tag) : WF (d.updateIndex t) :=
  wf_congr w (updateIndex_allTags d t) (updateIndex_allHashes d t)
    (updateIndex_hashesByTag d t) (updateIndex_tagsByEntryHash d t)
    (updateIndex_entriesByHash d t)

theorem wf_hbt_none {d : Dex} (w : WF d) {t : Tag} (h : t ∉ d.allTags) :
    recGet d.hashesByTag t = none := by
  cases hm : recGet d.hashesByTag t with
  | none => rfl
  | some hs => exact absurd (w.inv1b _ (mem_of_recGet_eq_some hm)) h

theorem wf_absent_tag_not_in_tagsets {d : Dex} (w : WF d) {t : Tag}
    (h : t ∉ d.allTags) {k : HashKey} {ts0 : List Tag}
    (hm : recGet d.tagsByEntryHash k = some ts0) : t ∉ ts0 := by
  intro hin
  have h2 := w.inv2b _ (mem_of_recGet_eq_some hm) t hin
  rw [wf_hbt_none w h] at h2
  simp at h2

theorem wf_mem_hs_iff {d : Dex} (w : WF d) {t : Tag} {hs : List HashKey}
    (hm : recGet d.hashesByTag t = some hs) (k : HashKey) :
    k ∈ hs ↔ t ∈ (recGet d.tagsByEntryHash k).getD [] := by
  constructor
  · intro hk
    have := w.inv2a _ (mem_of_recGet_eq_some hm) k hk
    exact this
  · intro ht
    cases hm2 : recGet d.tagsByEntryHash k with
    | none => rw [hm2] at ht; simp at ht
    | some ts0 =>
      have hts : t ∈ ts0 := by rw [hm2] at ht; simpa using ht
      have := w.inv2b _ (mem_of_recGet_eq_some hm2) t hts
      rw [hm] at this
      simpa using this

theorem filter_erase_cons {α : Type} [DecidableEq α] (t : α) (rest : List α)
    (l : List α) (nd : l.Nodup) :
    (l.erase t).filter (fun x => decide (x ∉ rest)) =
      l.filter (fun x => decide (x ∉ t :: rest)) := by
  rw [nd.erase_eq_filter, List.filter_filter]
  apply List.filter_congr
  intro x _
  by_cases hxt : x = t <;> by_cases hxr : x ∈ rest <;> simp [hxt, hxr]

theorem filter_cons_of_not_mem {α : Type} [DecidableEq α] {t : α}
    (rest : List α) {l : List α} (h : t ∉ l) :
    l.filter (fun x => decide (x ∉ rest)) =
      l.filter (fun x => decide (x ∉ t :: rest)) := by
  apply List.filter_congr
  intro x hx
  have hxt : ¬ x = t := fun he => h (he ▸ hx)
  simp [hxt]

theorem filter_cons_eq_nil_of_erase_nil {α : Type} [DecidableEq α] {t : α}
    {l : List α} (h : l.erase t = []) (rest : List α) (nd : l.Nodup) :
    l.filter (fun x => decide (x ∉ t :: rest)) = [] := by
  rw [← filter_erase_cons t rest l nd, h]
  rfl

theorem wf_after_dropTag {d d4 : Dex} (w : WF d) {t : Tag} {hs : List HashKey}
    (hm : recGet d.hashesByTag t = some hs)
    (hTags4 : d4.allTags = d.allTags.erase t)
    (hHbt4 : d4.hashesByTag = recDelete d.hashesByTag t)
    (hHashND : d4.allHashes.Nodup)
    (hTbhKeys : (d4.tagsByEntryHash.map Prod.fst).Nodup)
    (hEbhKeys : (d4.entriesByHash.map Prod.fst).Nodup)
    (hTbhVals : ∀ p ∈ d4.tagsByEntryHash, p.2.Nodup)
    (i4 : ∀ k, recGet d4.tagsByEntryHash k =
      if k ∈ hs then
        (if ((recGet d.tagsByEntryHash k).getD []).erase t = [] then none
         else some (((recGet d.tagsByEntryHash k).getD []).erase t))
      else recGet d.tagsByEntryHash k)
    (i5 : ∀ k, k ∈ d4.allHashes ↔ k ∈ d.allHashes ∧
      ¬(k ∈ hs ∧ ((recGet d.tagsByEntryHash k).getD []).erase t = []))
    (i6 : ∀ k, recGet d4.entriesByHash k =
      if k ∈ hs ∧ ((recGet d.tagsByEntryHash k).getD []).erase t = []
      then none else recGet d.entriesByHash k) :
    WF d4 := by
  have hsub : ∀ k ∈ hs, k ∈ d.allHashes := by
    intro k hk
    apply wf_mem_hashesOf w (t := t)
    rw [hm]
    simpa using hk
  constructor
  · rw [hTags4]; exact w.tagsND.erase t
  · exact hHashND
  · rw [hHbt4]; exact recDelete_keys_nodup w.hbtKeysND t
  · exact hTbhKeys
  · exact hEbhKeys
  · rw [hHbt4]
    intro p hp
    exact w.hbtValsND p (mem_recDelete.mp hp).1
  · exact hTbhVals
  · -- inv1a
    intro u hu
    rw [hTags4] at hu
    have hu2 := w.tagsND.mem_erase_iff.mp hu
    rw [hHbt4, recGet_recDelete_ne _ hu2.1]
    exact w.inv1a u hu2.2
  · -- inv1b
    intro p hp
    rw [hHbt4] at hp
    have hp2 := mem_recDelete.mp hp
    rw [hTags4]
    exact (List.mem_erase_of_ne hp2.2).mpr (w.inv1b p hp2.1)
  · -- inv2a
    intro p hp k hk
    rw [hHbt4] at hp
    have hp2 := mem_recDelete.mp hp
    have horig := w.inv2a p hp2.1 k hk
    rw [i4 k]
    by_cases hkhs : k ∈ hs
    · rw [if_pos hkhs]
      have hmem2 : p.1 ∈ ((recGet d.tagsByEntryHash k).getD []).erase t :=
        (List.mem_erase_of_ne hp2.2).mpr horig
      rw [if_neg (List.ne_nil_of_mem hmem2)]
      simpa using hmem2
    · rw [if_neg hkhs]
      exact horig
  · -- inv2b
    intro p hp u hu
    have hrec : recGet d4.tagsByEntryHash p.1 = some p.2 :=
      recGet_eq_some_of_mem hTbhKeys (by cases p; exact hp)
    rw [i4 p.1] at hrec
    by_cases hkhs : p.1 ∈ hs
    · rw [if_pos hkhs] at hrec
      by_cases hce : ((recGet d.tagsByEntryHash p.1).getD []).erase t = []
      · rw [if_pos hce] at hrec; exact absurd hrec (by simp)
      · rw [if_neg hce] at hrec
        have hp2 : p.2 = ((recGet d.tagsByEntryHash p.1).getD []).erase t := by
          injection hrec.symm
        have hund : u ≠ t ∧ u ∈ (recGet d.tagsByEntryHash p.1).getD [] := by
          rw [hp2] at hu
          exact (wf_tagsOf_nodup w p.1).mem_erase_iff.mp hu
        cases hm2 : recGet d.tagsByEntryHash p.1 with
        | none => rw [hm2] at hund; simp at hund
        | some ts0 =>
          have horig := w.inv2b _ (mem_of_recGet_eq_some hm2) u (by
            have := hund.2; rw [hm2] at this; simpa using this)
          rw [hHbt4, recGet_recDelete_ne _ hund.1]
          exact horig
    · rw [if_neg hkhs] at hrec
      have hpmem : (p.1, p.2) ∈ d.tagsByEntryHash := mem_of_recGet_eq_some hrec
      have horig := w.inv2b _ hpmem u hu
      have hut : u ≠ t := by
        intro he
        subst he
        have : p.1 ∈ hs := by
          rw [wf_mem_hs_iff w hm p.1, hrec]
          simpa using hu
        exact hkhs this
      rw [hHbt4, recGet_recDelete_ne _ hut]
      exact horig
  · -- inv3a
    intro k hk
    have hk2 := (i5 k).mp hk
    rw [i4 k]
    by_cases hkhs : k ∈ hs
    · rw [if_pos hkhs]
      have hce : ¬ ((recGet d.tagsByEntryHash k).getD []).erase t = [] :=
        fun hc => hk2.2 ⟨hkhs, hc⟩
      rw [if_neg hce]
      rfl
    · rw [if_neg hkhs]
      exact w.inv3a k hk2.1
  · -- inv3b
    intro p hp
    have hrec : recGet d4.tagsByEntryHash p.1 = some p.2 :=
      recGet_eq_some_of_mem hTbhKeys (by cases p; exact hp)
    rw [i4 p.1] at hrec
    by_cases hkhs : p.1 ∈ hs
    · rw [if_pos hkhs] at hrec
      by_cases hce : ((recGet d.tagsByEntryHash p.1).getD []).erase t = []
      · rw [if_pos hce] at hrec; exact absurd hrec (by simp)
      · rw [if_neg hce] at hrec
        exact (i5 p.1).mpr ⟨hsub p.1 hkhs, fun hcc => hce hcc.2⟩
    · rw [if_neg hkhs] at hrec
      have := w.inv3b _ (mem_of_recGet_eq_some hrec)
      exact (i5 p.1).mpr ⟨this, fun hcc => hkhs hcc.1⟩
  · -- inv3c
    intro k hk
    have hk2 := (i5 k).mp hk
    rw [i6 k, if_neg hk2.2]
    exact w.inv3c k hk2.1
  · -- inv3d
    intro p hp
    have hrec : recGet d4.entriesByHash p.1 = some p.2 :=
      recGet_eq_some_of_mem hEbhKeys (by cases p; exact hp)
    rw [i6 p.1] at hrec
    by_cases hcc : p.1 ∈ hs ∧ ((recGet d.tagsByEntryHash p.1).getD []).erase t = []
    · rw [if_pos hcc] at hrec; exact absurd hrec (by simp)
    · rw [if_neg hcc] at hrec
      have := w.inv3d _ (mem_of_recGet_eq_some hrec)
      exact (i5 p.1).mpr ⟨this, hcc⟩
  · -- hashOK
    intro p hp
    have hrec : recGet d4.entriesByHash p.1 = some p.2 :=
      recGet_eq_some_of_mem hEbhKeys (by cases p; exact hp)
    rw [i6 p.1] at hrec
    by_cases hcc : p.1 ∈ hs ∧ ((recGet d.tagsByEntryHash p.1).getD []).erase t = []
    · rw [if_pos hcc] at hrec; exact absurd hrec (by simp)
    · rw [if_neg hcc] at hrec
      exact w.hashOK _ (mem_of_recGet_eq_some hrec)

theorem dropTags_spec (tl : List Tag) :
    ∀ {d : Dex} (eff : List (Option EntryVal)), WF d →
    ∃ d' eff', Dex.dropTags d eff tl = .ok d' eff' ∧ WF d' ∧
      (∀ u, u ∈ d'.allTags ↔ u ∈ d.allTags ∧ u ∉ tl) ∧
      (∀ u, recGet d'.hashesByTag u =
        if u ∈ tl then none else recGet d.hashesByTag u) ∧
      (∀ k, recGet d'.tagsByEntryHash k =
        match recGet d.tagsByEntryHash k with
        | none => none
        | some ts0 =>
          if ts0 ≠ [] ∧ ts0.filter (fun x => decide (x ∉ tl)) = [] then none
          else some (ts0.filter (fun x => decide (x ∉ tl)))) ∧
      (∀ k ∈ d'.allHashes, k ∈ d.allHashes ∧
        recGet d'.entriesByHash k = recGet d.entriesByHash k) ∧
      (∀ x, x ∈ eff' ↔ x ∈ eff ∨ ∃ k ∈ d.allHashes,
        (∃ u ∈ tl, u ∈ (recGet d.tagsByEntryHash k).getD []) ∧
          x = recGet d.entriesByHash k) ∧
      (eff.Nodup → eff'.Nodup) := by
  induction tl with
  | nil =>
    intro d eff w
    refine ⟨d, eff, rfl, w, ?_, ?_, ?_, ?_, ?_, id⟩
    · intro u; simp
    · intro u; simp
    · intro k
      cases hm : recGet d.tagsByEntryHash k with
      | none => rfl
      | some ts0 => simp
    · intro k hk; exact ⟨hk, rfl⟩
    · intro x; simp
  | cons t rest ih =>
    intro d eff w
    by_cases hmem : t ∈ d.allTags
    · -- present tag
      obtain ⟨hs, hm⟩ : ∃ hs, recGet d.hashesByTag t = some hs :=
        Option.isSome_iff_exists.mp (w.inv1a t hmem)
      have hsnd : hs.Nodup := by
        simpa using w.hbtValsND _ (mem_of_recGet_eq_some hm)
      have hsH2 : ∀ k ∈ hs, ∃ ts0,
          recGet d.tagsByEntryHash k = some ts0 ∧ t ∈ ts0 := by
        intro k hk
        have ht := (wf_mem_hs_iff w hm k).mp hk
        cases hm2 : recGet d.tagsByEntryHash k with
        | none => rw [hm2] at ht; simp at ht
        | some ts0 =>
          refine ⟨ts0, rfl, ?_⟩
          rw [hm2] at ht
          simpa using ht
      have hsH4 : ∀ k ∈ hs, k ∈ d.allHashes := by
        intro k hk
        apply wf_mem_hashesOf w (t := t)
        rw [hm]
        simpa using hk
      -- the state with the tag deleted from allTags
      obtain ⟨d2, eff2, hloop, i1, i2, i3, i4, i5, i6, i7, i8, i9, i10, i11, i12⟩ :=
        dropHashLoop_spec t hs
          (d := { d with allTags := d.allTags.erase t }) eff hsnd hsH2 w.hashesND hsH4
      have i1' : d2.allTags = d.allTags.erase t := i1
      have i2' : d2.hashesByTag = d.hashesByTag := i2
      have i4' : ∀ k, recGet d2.tagsByEntryHash k =
          if k ∈ hs then
            (if ((recGet d.tagsByEntryHash k).getD []).erase t = [] then none
             else some (((recGet d.tagsByEntryHash k).getD []).erase t))
          else recGet d.tagsByEntryHash k := i4
      have i5' : ∀ k, k ∈ d2.allHashes ↔ k ∈ d.allHashes ∧
          ¬(k ∈ hs ∧ ((recGet d.tagsByEntryHash k).getD []).erase t = []) := i5
      have i6' : ∀ k, recGet d2.entriesByHash k =
          if k ∈ hs ∧ ((recGet d.tagsByEntryHash k).getD []).erase t = []
          then none else recGet d.entriesByHash k := i6
      have i7' : ∀ x, x ∈ eff2 ↔ x ∈ eff ∨
          ∃ k ∈ hs, x = recGet d.entriesByHash k := i7
      -- the state after the whole iteration for t
      set d4 : Dex :=
        Dex.updateIndex
          { d2 with hashesByTag := recDelete d2.hashesByTag t } t with hd4
      have hTags4 : d4.allTags = d.allTags.erase t := by
        rw [hd4, updateIndex_allTags]
        exact i1'
      have hHbt4 : d4.hashesByTag = recDelete d.hashesByTag t := by
        rw [hd4, updateIndex_hashesByTag]
        show recDelete d2.hashesByTag t = _
        rw [i2']
      have hTbh4 : d4.tagsByEntryHash = d2.tagsByEntryHash := by
        rw [hd4, updateIndex_tagsByEntryHash]
      have hEbh4 : d4.entriesByHash = d2.entriesByHash := by
        rw [hd4, updateIndex_entriesByHash]
      have hHashes4 : d4.allHashes = d2.allHashes := by
        rw [hd4, updateIndex_allHashes]
      have wf4 : WF d4 := by
        refine wf_after_dropTag w hm hTags4 hHbt4 ?_ ?_ ?_ ?_ ?_ ?_ ?_
        · rw [hHashes4]; exact i8
        · rw [hTbh4]; exact i9 w.tbhKeysND
        · rw [hEbh4]; exact i10 w.ebhKeysND
        · rw [hTbh4]; exact i11 w.tbhValsND
        · intro k; rw [hTbh4]; exact i4' k
        · intro k; rw [hHashes4]; exact i5' k
        · intro k; rw [hEbh4]; exact i6' k
      obtain ⟨d', eff', heq, wf', j1, j2, j3, j4, j5, j6⟩ := ih eff2 wf4
      refine ⟨d', eff', ?_, wf', ?_, ?_, ?_, ?_, ?_, ?_⟩
      · -- the computation equation
        unfold Dex.dropTags
        dsimp only [setDeleteB]
        rw [if_pos (by simpa using hmem)]
        rw [hm]
        dsimp only
        rw [hloop]
        exact heq
      · -- allTags
        intro u
        rw [j1 u, hTags4]
        constructor
        · rintro ⟨hu, hur⟩
          have hu2 := w.tagsND.mem_erase_iff.mp hu
          refine ⟨hu2.2, ?_⟩
          intro hin
          rcases List.mem_cons.mp hin with he | he
          · exact hu2.1 he
          · exact hur he
        · rintro ⟨hu, hur⟩
          have hut : u ≠ t := fun he => hur (he ▸ List.mem_cons_self t rest)
          exact ⟨w.tagsND.mem_erase_iff.mpr ⟨hut, hu⟩,
            fun he => hur (List.mem_cons_of_mem _ he)⟩
      · -- hashesByTag
        intro u
        rw [j2 u, hHbt4]
        by_cases hur : u ∈ rest
        · rw [if_pos hur, if_pos (List.mem_cons_of_mem _ hur)]
        · rw [if_neg hur]
          by_cases hut : u = t
          · subst hut
            rw [recGet_recDelete_self, if_pos (List.mem_cons_self u rest)]
          · rw [recGet_recDelete_ne _ hut,
              if_neg (by
                intro hin
                rcases List.mem_cons.mp hin with he | he
                · exact hut he
                · exact hur he)]
      · -- tagsByEntryHash
        intro k
        rw [j3 k, hTbh4, i4' k]
        cases hm0 : recGet d.tagsByEntryHash k with
        | none =>
          have hknot : k ∉ hs := by
            intro hk
            obtain ⟨ts0, hm', _⟩ := hsH2 k hk
            rw [hm0] at hm'
            cases hm'
          rw [if_neg hknot]
        | some ts0 =>
          have hnd0 : ts0.Nodup := by
            simpa using w.tbhValsND _ (mem_of_recGet_eq_some hm0)
          by_cases hkhs : k ∈ hs
          · have hts : t ∈ ts0 := by
              have h5 := (wf_mem_hs_iff w hm k).mp hkhs
              rw [hm0] at h5
              simpa using h5
            rw [if_pos hkhs]
            simp only [Option.getD_some]
            by_cases hce : ts0.erase t = []
            · rw [if_pos hce]
              dsimp only
              rw [if_pos ⟨List.ne_nil_of_mem hts,
                filter_cons_eq_nil_of_erase_nil hce rest hnd0⟩]
            · rw [if_neg hce]
              dsimp only
              rw [filter_erase_cons t rest ts0 hnd0]
              by_cases hcf : ts0.filter (fun x => decide (x ∉ t :: rest)) = []
              · rw [if_pos ⟨hce, hcf⟩, if_pos ⟨List.ne_nil_of_mem hts, hcf⟩]
              · rw [if_neg (by rintro ⟨_, hc2⟩; exact hcf hc2),
                  if_neg (by rintro ⟨_, hc2⟩; exact hcf hc2)]
          · have hts : t ∉ ts0 := by
              intro hin
              apply hkhs
              rw [wf_mem_hs_iff w hm k, hm0]
              simpa using hin
            rw [if_neg hkhs]
            dsimp only
            rw [filter_cons_of_not_mem rest hts]
      · -- surviving entries
        intro k hk
        obtain ⟨hk4, hkeq⟩ := j4 k hk
        rw [hHashes4] at hk4
        have hk5 := (i5' k).mp hk4
        refine ⟨hk5.1, ?_⟩
        rw [hkeq, hEbh4, i6' k, if_neg hk5.2]
      · -- effected entries
        intro x
        rw [j5 x]
        constructor
        · rintro (hx2 | ⟨k, hk4, ⟨u, hur, hu⟩, hxe⟩)
          · rw [i7' x] at hx2
            rcases hx2 with hx | ⟨k, hk, hxe⟩
            · exact Or.inl hx
            · refine Or.inr ⟨k, hsH4 k hk, ⟨t, List.mem_cons_self t rest, ?_⟩, hxe⟩
              exact (wf_mem_hs_iff w hm k).mp hk
          · rw [hHashes4] at hk4
            have hk5 := (i5' k).mp hk4
            rw [hTbh4, i4' k] at hu
            rw [hEbh4, i6' k, if_neg hk5.2] at hxe
            refine Or.inr ⟨k, hk5.1, ⟨u, List.mem_cons_of_mem _ hur, ?_⟩, hxe⟩
            by_cases hkhs : k ∈ hs
            · rw [if_pos hkhs] at hu
              by_cases hce : ((recGet d.tagsByEntryHash k).getD []).erase t = []
              · rw [if_pos hce] at hu
                simp at hu
              · rw [if_neg hce] at hu
                have := List.mem_of_mem_erase (by simpa using hu)
                exact this
            · rw [if_neg hkhs] at hu
              exact hu
        · rintro (hx | ⟨k, hka, ⟨u, hur, hu⟩, hxe⟩)
          · exact Or.inl ((i7' x).mpr (Or.inl hx))
          · by_cases hut : u = t
            · subst hut
              have hkhs : k ∈ hs := (wf_mem_hs_iff w hm k).mpr hu
              exact Or.inl ((i7' x).mpr (Or.inr ⟨k, hkhs, hxe⟩))
            · have hur2 : u ∈ rest := by
                rcases List.mem_cons.mp hur with he | he
                · exact absurd he hut
                · exact he
              by_cases hrem : k ∈ hs ∧
                  ((recGet d.tagsByEntryHash k).getD []).erase t = []
              · exact Or.inl ((i7' x).mpr (Or.inr ⟨k, hrem.1, hxe⟩))
              · refine Or.inr ⟨k, ?_, ⟨u, hur2, ?_⟩, ?_⟩
                · rw [hHashes4]
                  exact (i5' k).mpr ⟨hka, hrem⟩
                · rw [hTbh4, i4' k]
                  by_cases hkhs : k ∈ hs
                  · rw [if_pos hkhs]
                    have hce : ¬ ((recGet d.tagsByEntryHash k).getD []).erase t
                        = [] := fun hc => hrem ⟨hkhs, hc⟩
                    rw [if_neg hce]
                    simpa using List.mem_erase_of_ne hut |>.mpr hu
                  · rw [if_neg hkhs]
                    exact hu
                · rw [hEbh4, i6' k, if_neg hrem]
                  exact hxe
      · -- nodup
        intro hne
        exact j6 (i12 hne)
    · -- absent tag
      have herase : d.allTags.erase t = d.allTags := List.erase_of_not_mem hmem
      set d4 : Dex :=
        Dex.updateIndex { d with allTags := d.allTags.erase t } t with hd4
      have hTags4 : d4.allTags = d.allTags := by
        rw [hd4, updateIndex_allTags]
        exact herase
      have hHbt4 : d4.hashesByTag = d.hashesByTag := by
        rw [hd4, updateIndex_hashesByTag]
      have hTbh4 : d4.tagsByEntryHash = d.tagsByEntryHash := by
        rw [hd4, updateIndex_tagsByEntryHash]
      have hEbh4 : d4.entriesByHash = d.entriesByHash := by
        rw [hd4, updateIndex_entriesByHash]
      have hHashes4 : d4.allHashes = d.allHashes := by
        rw [hd4, updateIndex_allHashes]
      have wf4 : WF d4 := wf_congr w hTags4 hHashes4 hHbt4 hTbh4 hEbh4
      obtain ⟨d', eff', heq, wf', j1, j2, j3, j4, j5, j6⟩ := ih eff wf4
      refine ⟨d', eff', ?_, wf', ?_, ?_, ?_, ?_, ?_, j6⟩
      · unfold Dex.dropTags
        dsimp only [setDeleteB]
        rw [if_neg (by simpa using hmem)]
        exact heq
      · intro u
        rw [j1 u, hTags4]
        by_cases hut : u = t
        · subst hut
          constructor
          · rintro ⟨hu, _⟩
            exact absurd hu hmem
          · rintro ⟨hu, _⟩
            exact absurd hu hmem
        · constructor
          · rintro ⟨hu, hur⟩
            refine ⟨hu, ?_⟩
            intro hin
            rcases List.mem_cons.mp hin with he | he
            · exact hut he
            · exact hur he
          · rintro ⟨hu, hur⟩
            exact ⟨hu, fun he => hur (List.mem_cons_of_mem _ he)⟩
      · intro u
        rw [j2 u, hHbt4]
        by_cases hur : u ∈ rest
        · rw [if_pos hur, if_pos (List.mem_cons_of_mem _ hur)]
        · rw [if_neg hur]
          by_cases hut : u = t
          · subst hut
            rw [wf_hbt_none w hmem, if_pos (List.mem_cons_self u rest)]
          · rw [if_neg (by
              intro hin
              rcases List.mem_cons.mp hin with he | he
              · exact hut he
              · exact hur he)]
      · intro k
        rw [j3 k, hTbh4]
        cases hm0 : recGet d.tagsByEntryHash k with
        | none => rfl
        | some ts0 =>
          have hts : t ∉ ts0 := wf_absent_tag_not_in_tagsets w hmem hm0
          dsimp only
          rw [filter_cons_of_not_mem rest hts]
      · intro k hk
        obtain ⟨hk4, hkeq⟩ := j4 k hk
        rw [hHashes4] at hk4
        rw [hEbh4] at hkeq
        exact ⟨hk4, hkeq⟩
      · intro x
        rw [j5 x]
        constructor
        · rintro (hx | ⟨k, hka, ⟨u, hur, hu⟩, hxe⟩)
          · exact Or.inl hx
          · rw [hHashes4] at hka
            rw [hTbh4] at hu
            rw [hEbh4] at hxe
            exact Or.inr ⟨k, hka, ⟨u, List.mem_cons_of_mem _ hur, hu⟩, hxe⟩
        · rintro (hx | ⟨k, hka, ⟨u, hur, hu⟩, hxe⟩)
          · exact Or.inl hx
          · have hut : u ≠ t := by
              intro he
              subst he
              cases hm0 : recGet d.tagsByEntryHash k with
              | none => rw [hm0] at hu; simp at hu
              | some ts0 =>
                rw [hm0] at hu
                exact wf_absent_tag_not_in_tagsets w hmem hm0 (by simpa using hu)
            have hur2 : u ∈ rest := by
              rcases List.mem_cons.mp hur with he | he
              · exact absurd he hut
              · exact he
            refine Or.inr ⟨k, ?_, ⟨u, hur2, ?_⟩, ?_⟩
            · rw [hHashes4]; exact hka
            · rw [hTbh4]; exact hu
            · rw [hEbh4]; exact hxe

/-- **C5.** On a well-formed index, `drop(t1,...,tn)` succeeds and: every
given tag ends up absent from `allTags` and `hashesByTag`, while tags
outside the list keep their registration and their hash set; each given tag
is removed from the tag-set of every associated entry; an entry whose
tag-set becomes empty is deleted from all tables (`allHashes`,
`tagsByEntryHash`, `entriesByHash` — and it appears in no surviving
`hashesByTag` slot, since all its tags were dropped), while an entry that
also carries a tag outside the dropped list survives, keeping exactly its
undropped tags and its entry value; and the returned "effected" list is
duplicate-free and holds exactly the entries that were associated with at
least one of the given tags. -/
theorem c5_drop_removes_tags_cascades_and_returns_effected
    (d : Dex) (tl : List Tag) (w : WF d) :
    ∃ d2 eff, d.drop tl = .ok d2 eff ∧ WF d2 ∧
      (∀ u ∈ tl, u ∉ d2.allTags ∧ recGet d2.hashesByTag u = none) ∧
      (∀ u, u ∉ tl → (u ∈ d2.allTags ↔ u ∈ d.allTags) ∧
        recGet d2.hashesByTag u = recGet d.hashesByTag u) ∧
      (∀ k, recGet d2.tagsByEntryHash k =
        match recGet d.tagsByEntryHash k with
        | none => none
        | some ts0 =>
          if ts0 ≠ [] ∧ ts0.filter (fun x => decide (x ∉ tl)) = [] then none
          else some (ts0.filter (fun x => decide (x ∉ tl)))) ∧
      (∀ k ∈ d.allHashes, (k ∈ d2.allHashes ↔
        ((recGet d.tagsByEntryHash k).getD [] = [] ∨
          ∃ u ∈ (recGet d.tagsByEntryHash k).getD [], u ∉ tl))) ∧
      (∀ k, k ∉ d2.allHashes → recGet d2.entriesByHash k = none ∧
        recGet d2.tagsByEntryHash k = none) ∧
      (∀ k ∈ d2.allHashes, k ∈ d.allHashes ∧
        recGet d2.entriesByHash k = recGet d.entriesByHash k) ∧
      eff.Nodup ∧
      (∀ x, x ∈ eff ↔ ∃ k ∈ d.allHashes,
        (∃ u ∈ tl, u ∈ (recGet d.tagsByEntryHash k).getD []) ∧
          x = recGet d.entriesByHash k) := by
  obtain ⟨d2, eff, hrun, w2, hTags, hHbt, hTbh, hSurv, hEff, hND⟩ :=
    dropTags_spec tl (d := d) [] w
  refine ⟨d2, eff, hrun, w2, ?_, ?_, hTbh, ?_, ?_, hSurv,
    hND List.nodup_nil, ?_⟩
  · intro u hu
    refine ⟨fun hc => ((hTags u).mp hc).2 hu, ?_⟩
    rw [hHbt u, if_pos hu]
  · intro u hu
    refine ⟨?_, ?_⟩
    · rw [hTags u]
      exact ⟨fun hc => hc.1, fun hc => ⟨hc, hu⟩⟩
    · rw [hHbt u, if_neg hu]
  · intro k hk
    obtain ⟨ts0, hts0⟩ : ∃ ts0, recGet d.tagsByEntryHash k = some ts0 :=
      Option.isSome_iff_exists.mp (w.inv3a k hk)
    have hval := hTbh k
    rw [hts0] at hval
    dsimp only at hval
    rw [hts0]
    simp only [Option.getD_some]
    constructor
    · intro hk2
      have hsome := w2.inv3a k hk2
      rw [hval] at hsome
      by_cases hc : ts0 ≠ [] ∧ ts0.filter (fun x => decide (x ∉ tl)) = []
      · rw [if_pos hc] at hsome
        simp at hsome
      · by_cases hnil : ts0 = []
        · exact Or.inl hnil
        · right
          have hf : ts0.filter (fun x => decide (x ∉ tl)) ≠ [] := by
            intro h0
            exact hc ⟨hnil, h0⟩
          rcases List.exists_mem_of_ne_nil _ hf with ⟨u, hu⟩
          rcases List.mem_filter.mp hu with ⟨hu1, hu2⟩
          exact ⟨u, hu1, by simpa using hu2⟩
    · intro hc
      have hsome : recGet d2.tagsByEntryHash k =
          some (ts0.filter (fun x => decide (x ∉ tl))) := by
        rw [hval, if_neg ?_]
        rintro ⟨hne, hfe⟩
        rcases hc with hnil | ⟨u, hu1, hu2⟩
        · exact hne hnil
        · have : u ∈ ts0.filter (fun x => decide (x ∉ tl)) :=
            List.mem_filter.mpr ⟨hu1, by simpa using hu2⟩
          rw [hfe] at this
          cases this
      exact w2.inv3b _ (mem_of_recGet_eq_some hsome)
  · intro k hk
    constructor
    · cases he : recGet d2.entriesByHash k with
      | none => rfl
      | some v => exact absurd (w2.inv3d _ (mem_of_recGet_eq_some he)) hk
    · cases he : recGet d2.tagsByEntryHash k with
      | none => rfl
      | some v => exact absurd (w2.inv3b _ (mem_of_recGet_eq_some he)) hk
  · intro x
    rw [hEff x]
    simp only [List.not_mem_nil, false_or]

/-- Witness for **C5** at the concrete index `x {A}, y {B}, z {A, B}`,
dropping `A`. -/
theorem c5_drop_removes_tags_cascades_and_returns_effected_witness :
    WF dexXYZ ∧
    (∃ d2 eff, dexXYZ.drop [Atom.str "A"] = .ok d2 eff ∧ WF d2 ∧
      (∀ u ∈ [Atom.str "A"], u ∉ d2.allTags ∧
        recGet d2.hashesByTag u = none) ∧
      (∀ u, u ∉ [Atom.str "A"] → (u ∈ d2.allTags ↔ u ∈ dexXYZ.allTags) ∧
        recGet d2.hashesByTag u = recGet dexXYZ.hashesByTag u) ∧
      (∀ k, recGet d2.tagsByEntryHash k =
        match recGet dexXYZ.tagsByEntryHash k with
        | none => none
        | some ts0 =>
          if ts0 ≠ [] ∧
              ts0.filter (fun x => decide (x ∉ [Atom.str "A"])) = [] then none
          else some (ts0.filter (fun x => decide (x ∉ [Atom.str "A"])))) ∧
      (∀ k ∈ dexXYZ.allHashes, (k ∈ d2.allHashes ↔
        ((recGet dexXYZ.tagsByEntryHash k).getD [] = [] ∨
          ∃ u ∈ (recGet dexXYZ.tagsByEntryHash k).getD [],
            u ∉ [Atom.str "A"]))) ∧
      (∀ k, k ∉ d2.allHashes → recGet d2.entriesByHash k = none ∧
        recGet d2.tagsByEntryHash k = none) ∧
      (∀ k ∈ d2.allHashes, k ∈ dexXYZ.allHashes ∧
        recGet d2.entriesByHash k = recGet dexXYZ.entriesByHash k) ∧
      eff.Nodup ∧
      (∀ x, x ∈ eff ↔ ∃ k ∈ dexXYZ.allHashes,
        (∃ u ∈ [Atom.str "A"],
          u ∈ (recGet dexXYZ.tagsByEntryHash k).getD []) ∧
          x = recGet dexXYZ.entriesByHash k)) :=
  ⟨by decide, c5_drop_removes_tags_cascades_and_returns_effected dexXYZ
    [Atom.str "A"] (by decide)⟩
